import Mathlib

/-!
# A verification development for the BatchAnalyzer utility module

This file gives a shallow embedding, in Lean, of the text-processing
functions of `BatchAnalyzer.py` — the config parser `ReadConf`, the
table reader `ReadTable`, the text dump `SaveData`, and the `Report`
writer — together with theorems settling the stated properties of the
module.

Python strings are modelled as `List Char`; Python floats as exact
values (`PyFloat`); file contents as `String`/`Option String` (with
`none` standing for a missing file); Python dictionaries as
insertion-ordered association lists, which matches the dictionary
semantics of every Python version the module targets.
-/

namespace BatchAnalyzer

/-! ### Python string primitives, modelled on `List Char` -/

/-- Whitespace as recognised by Python `str.strip` / `str.split`
(the ASCII subset, which covers the texts this module handles). -/
def pyIsSpace (c : Char) : Bool :=
  c = ' ' || c = '\t' || c = '\n' || c = '\r' || c = '\x0b' || c = '\x0c'

/-- Python `s.lstrip()`. -/
def pyLstrip (l : List Char) : List Char := l.dropWhile pyIsSpace

/-- Python `s.rstrip()`. -/
def pyRstrip (l : List Char) : List Char := (l.reverse.dropWhile pyIsSpace).reverse

/-- Python `s.strip()`. -/
def pyStrip (l : List Char) : List Char := pyRstrip (pyLstrip l)

/-- Python `s.lower()` (ASCII case folding, which covers the literals
`"true"`/`"false"`/`"inf"`/`"nan"` the module compares against). -/
def pyLower (l : List Char) : List Char := l.map Char.toLower

/-- Python `s.split(c)` for a one-character separator: split at every
occurrence, keeping empty pieces. -/
def pySplitChar (c : Char) : List Char → List (List Char)
  | [] => [[]]
  | x :: xs =>
    if x = c then [] :: pySplitChar c xs
    else
      match pySplitChar c xs with
      | [] => [[x]]
      | y :: ys => (x :: y) :: ys

/-- Python `s.split(c, 1)` in the case the separator occurs: the text
before the first occurrence and the text after it.  Returns `none` when
the separator does not occur (the source only uses the split under an
`in` guard). -/
def pySplit1 (c : Char) : List Char → Option (List Char × List Char)
  | [] => none
  | x :: xs =>
    if x = c then some ([], xs)
    else (pySplit1 c xs).map (fun p => (x :: p.1, p.2))

def pySplitWsAux : List Char → List Char → List (List Char)
  | [], acc => if acc = [] then [] else [acc.reverse]
  | c :: cs, acc =>
    if pyIsSpace c then
      if acc = [] then pySplitWsAux cs [] else acc.reverse :: pySplitWsAux cs []
    else pySplitWsAux cs (c :: acc)

/-- Python `s.split()` with no argument: split on runs of whitespace,
producing no empty tokens. -/
def pySplitWs (l : List Char) : List (List Char) := pySplitWsAux l []

/-- The first occurrence of the substring `sep` in a string: the part
before it and the part after it, if any occurrence exists. -/
def findSplit (sep : List Char) : List Char → Option (List Char × List Char)
  | [] => none
  | c :: cs =>
    if sep.isPrefixOf (c :: cs) then some ([], (c :: cs).drop sep.length)
    else (findSplit sep cs).map (fun p => (c :: p.1, p.2))

def pySplitStrAux (sep : List Char) : Nat → List Char → List (List Char)
  | 0, l => [l]
  | fuel + 1, l =>
    match findSplit sep l with
    | none => [l]
    | some (pre, post) => pre :: pySplitStrAux sep fuel post

/-- Python `s.split(sep)` for a non-empty separator string (the fuel
`length + 1` is enough since each step consumes at least one character). -/
def pySplitStr (sep l : List Char) : List (List Char) :=
  pySplitStrAux sep (l.length + 1) l

def pyReadlinesAux : List Char → List Char → List (List Char)
  | [], acc => if acc = [] then [] else [acc.reverse]
  | c :: cs, acc =>
    if c = '\n' then (acc.reverse ++ ['\n']) :: pyReadlinesAux cs []
    else pyReadlinesAux cs (c :: acc)

/-- Python `fp.readlines()` on the whole contents of a text file: the
lines, each keeping its terminating newline; a final unterminated chunk
is kept when non-empty. -/
def pyReadlines (l : List Char) : List (List Char) := pyReadlinesAux l []

/-- Python substring containment, `pat in l` for strings. -/
def isSubstr (pat : List Char) : List Char → Bool
  | [] => pat.isEmpty
  | c :: cs => pat.isPrefixOf (c :: cs) || isSubstr pat cs

/-- Index of the last occurrence of a character (Python `s.rfind(c)`,
with `none` for "not found"). -/
def lastIdxOf (c : Char) (l : List Char) : Option Nat :=
  match l.reverse.findIdx? (· = c) with
  | some i => some (l.length - 1 - i)
  | none => none

/-- Python `os.path.splitext` (POSIX flavour): split off the extension
at the last dot of the final path component, unless the characters of
that component before the dot are all dots themselves. -/
def pySplitext (p : List Char) : List Char × List Char :=
  let sepIdx : Int := match lastIdxOf '/' p with | some i => (i : Int) | none => -1
  match lastIdxOf '.' p with
  | none => (p, [])
  | some d =>
    if sepIdx < (d : Int) then
      let fIdx : Nat := (sepIdx + 1).toNat
      if ((p.drop fIdx).take (d - fIdx)).all (· = '.') then (p, [])
      else (p.take d, p.drop d)
    else (p, [])

/-- Python list indexing `l[i]` with negative-index wrap-around,
returning `none` exactly where Python raises `IndexError`. -/
def pyGetItem {α : Type} (l : List α) (i : Int) : Option α :=
  if 0 ≤ i then l.get? i.toNat
  else if (-i).toNat ≤ l.length then l.get? (l.length - (-i).toNat) else none

/-! ### Exact Python float values

Python `float` values are modelled exactly: a finite value is an exact
rational, and the special values `inf`, `-inf`, `nan` are explicit
constructors.  Rounding of decimal literals to IEEE doubles is not
modelled; the literals this module manipulates are short and the
distinction never shows in the properties below. -/

/-- Euclid's algorithm with explicit fuel, so that the kernel can
evaluate it (the fuel `m + 1` always suffices). -/
def natGcdAux : Nat → Nat → Nat → Nat
  | 0, _, n => n
  | _ + 1, 0, n => n
  | fuel + 1, m + 1, n => natGcdAux fuel (n % (m + 1)) (m + 1)

def natGcd (m n : Nat) : Nat := natGcdAux (m + 1) m n

/-- A rational number kept in lowest terms (all values are built with
`mkQ` or with a denominator of 1). -/
structure Q where
  num : Int
  den : Nat
deriving DecidableEq

/-- The normalised rational `n / d` (for `d ≠ 0`). -/
def mkQ (n : Int) (d : Nat) : Q :=
  let g := natGcd n.natAbs d
  if g = 0 then ⟨0, 1⟩ else ⟨n / (g : Int), d / g⟩

def qOfNat (n : Nat) : Q := ⟨(n : Int), 1⟩

def negQ (q : Q) : Q := ⟨-q.num, q.den⟩

/-- The rational `m * 10 ^ e / 10 ^ f` in lowest terms. -/
def scaleQ (m : Nat) (e : Int) (f : Nat) : Q :=
  let e' : Int := e - (f : Int)
  if 0 ≤ e' then ⟨(m : Int) * (10 : Int) ^ e'.toNat, 1⟩
  else mkQ (m : Int) ((10 : Nat) ^ (-e').toNat)

inductive PyFloat where
  | finite (q : Q)
  | inf
  | ninf
  | nan
deriving DecidableEq

/-- Numeric value of a list of decimal digit characters. -/
def digitsVal (l : List Char) : Nat := l.foldl (fun a c => 10 * a + (c.toNat - 48)) 0

def isDigitOrScore (c : Char) : Bool := c.isDigit || c = '_'

/-- A run of digits with optional underscore grouping is valid when it
is non-empty, starts and ends with a digit, and has no two adjacent
underscores (Python's numeric-literal grouping rule). -/
def validDigitRun (l : List Char) : Bool :=
  (match l with | [] => false | c :: _ => c.isDigit) &&
  (match l.getLast? with | some c => c.isDigit | none => false) &&
  !(isSubstr ['_', '_'] l)

def runVal (l : List Char) : Nat := digitsVal (l.filter Char.isDigit)

def runLen (l : List Char) : Nat := (l.filter Char.isDigit).length

/-- The exponent part of a float literal (what follows `e`/`E`). -/
def parseExpPart (l : List Char) : Option Int :=
  match l with
  | '+' :: r => if validDigitRun r then some ((runVal r : Int)) else none
  | '-' :: r => if validDigitRun r then some (-(runVal r : Int)) else none
  | r => if validDigitRun r then some ((runVal r : Int)) else none

/-- An unsigned decimal mantissa with optional fraction and exponent:
`digits [. digits] [(e|E) exp]` or `. digits [(e|E) exp]`. -/
def parseMantExp (l : List Char) : Option Q :=
  let ipRun := l.takeWhile isDigitOrScore
  let r1 := l.dropWhile isDigitOrScore
  if !ipRun.isEmpty && !validDigitRun ipRun then none
  else
    match r1 with
    | [] => if ipRun.isEmpty then none else some (qOfNat (runVal ipRun))
    | '.' :: r2 =>
      let fpRun := r2.takeWhile isDigitOrScore
      let r3 := r2.dropWhile isDigitOrScore
      if !fpRun.isEmpty && !validDigitRun fpRun then none
      else if ipRun.isEmpty && fpRun.isEmpty then none
      else
        let m := runVal ipRun * 10 ^ runLen fpRun + runVal fpRun
        match r3 with
        | [] => some (scaleQ m 0 (runLen fpRun))
        | 'e' :: r4 => (parseExpPart r4).map (fun e => scaleQ m e (runLen fpRun))
        | 'E' :: r4 => (parseExpPart r4).map (fun e => scaleQ m e (runLen fpRun))
        | _ => none
    | 'e' :: r4 =>
      if ipRun.isEmpty then none
      else (parseExpPart r4).map (fun e => scaleQ (runVal ipRun) e 0)
    | 'E' :: r4 =>
      if ipRun.isEmpty then none
      else (parseExpPart r4).map (fun e => scaleQ (runVal ipRun) e 0)
    | _ => none

def pyParseFloatBody (r : List Char) (neg : Bool) : Option PyFloat :=
  let low := pyLower r
  if low = "inf".toList || low = "infinity".toList then
    some (if neg then .ninf else .inf)
  else if low = "nan".toList then some .nan
  else (parseMantExp r).map (fun q => .finite (if neg then negQ q else q))

/-- Python `float(s)`: strip whitespace, take an optional sign, then
either a special literal (`inf`/`infinity`/`nan`, case-insensitively)
or a decimal mantissa with optional exponent.  `none` exactly where
Python raises `ValueError`. -/
def pyParseFloat (l : List Char) : Option PyFloat :=
  match pyStrip l with
  | '+' :: r => pyParseFloatBody r false
  | '-' :: r => pyParseFloatBody r true
  | r => pyParseFloatBody r false

/-! ### Python values, and `str()` on them -/

/-- The Python values this module passes around: booleans, integers
(the bare-key sentinel `1` and the example data), floats, and strings. -/
inductive PyVal where
  | pyBool (b : Bool)
  | pyInt (n : Int)
  | pyFloat (f : PyFloat)
  | pyStr (s : String)
deriving DecidableEq

/-- The decimal numeral for `n / 10 ^ k`, with `k` digits after the
point (at least one digit on each side of the point). -/
def decimalString (n : Int) (k : Nat) : String :=
  let s := (toString n.natAbs).toList
  let s := if s.length < k + 1 then List.replicate (k + 1 - s.length) '0' ++ s else s
  (if n < 0 then "-" else "") ++ String.mk (s.take (s.length - k)) ++ "." ++
    (if k = 0 then "0" else String.mk (s.drop (s.length - k)))

/-- Python `str()` of a float, for floats whose exact value has a short
decimal expansion — the only floats this module prints.  (Python's
switch to scientific notation at extreme magnitudes is not modelled;
the final fallback case never arises for the values considered here.) -/
def floatStr : PyFloat → String
  | .inf => "inf"
  | .ninf => "-inf"
  | .nan => "nan"
  | .finite q =>
    match (List.range 18).find? (fun k => 10 ^ k % q.den = 0) with
    | some k => decimalString (q.num * ((10 ^ k / q.den : Nat) : Int)) k
    | none => decimalString q.num 0 ++ "/" ++ toString q.den

/-- Python `str()` on the values above. -/
def pyToString : PyVal → String
  | .pyBool true => "True"
  | .pyBool false => "False"
  | .pyInt n => toString n
  | .pyFloat f => floatStr f
  | .pyStr s => s

/-! ### Insertion-ordered dictionaries

Python dictionaries preserve insertion order; assigning to an existing
key keeps its position, assigning to a fresh key appends it.  They are
modelled as association lists obeying exactly those rules. -/

def alContains {κ α : Type} [DecidableEq κ] (res : List (κ × α)) (k : κ) : Bool :=
  res.any (fun p => p.1 = k)

def alLookup {κ α : Type} [DecidableEq κ] (res : List (κ × α)) (k : κ) : Option α :=
  match res.find? (fun p => p.1 = k) with
  | some p => some p.2
  | none => none

/-- Python `res[k] = v`: replace in place when the key exists, append
otherwise. -/
def alSet {κ α : Type} [DecidableEq κ] (res : List (κ × α)) (k : κ) (v : α) :
    List (κ × α) :=
  if alContains res k then res.map (fun p => if p.1 = k then (k, v) else p)
  else res ++ [(k, v)]

/-- Python `res[k].append(v)` on a dictionary of lists (the key is
assumed present, as at the call site in the source). -/
def alAppendVal {κ : Type} [DecidableEq κ] (res : List (κ × List PyVal)) (k : κ)
    (v : PyVal) : List (κ × List PyVal) :=
  res.map (fun p => if p.1 = k then (p.1, p.2 ++ [v]) else p)

/-! ### `ReadConf` — the config parser -/

/-- The boolean/float/string coercion `ReadConf` applies to an
extracted value string (`BatchAnalyzer.py`, lines 189–197). -/
def coerceVal (val : List Char) : PyVal :=
  if pyLower val = "false".toList then .pyBool false
  else if pyLower val = "true".toList then .pyBool true
  else
    match pyParseFloat val with
    | some f => .pyFloat f
    | none => .pyStr (String.mk val)

/-- Value extraction from the right-hand side of `=`
(`BatchAnalyzer.py`, line 183): `txt[1].split('"')[1]` when a double
quote occurs, `txt[1].strip()` otherwise. -/
def valExtract (rhs : List Char) : List Char :=
  if '"' ∈ rhs then ((pySplitChar '"' rhs).getD 1 []) else pyStrip rhs

/-- What one config line contributes: a key/value pair, a bare key, or
nothing. -/
inductive ConfEntry where
  | kv (key : String) (v : PyVal)
  | bare (key : String)
  | skip
deriving DecidableEq

/-- The line preprocessing both readers share verbatim
(`BatchAnalyzer.py`, lines 173–177 and 286–288): strip the line, then
cut everything from the first `#` on. -/
def stripCut (line : List Char) : List Char :=
  let i := pyStrip line
  if '#' ∈ i then (pySplitChar '#' i).headD [] else i

/-- The per-line analysis of `ReadConf` (`BatchAnalyzer.py`,
lines 169–209): strip the line, cut at the first `#`, then split at the
first `=` into key and value, or else treat the whole line as a bare
key. -/
def confLine (line : List Char) : ConfEntry :=
  let i := stripCut line
  if '=' ∈ i then
    match pySplit1 '=' i with
    | some (lhs, rhs) => .kv (String.mk (pyRstrip lhs)) (coerceVal (valExtract rhs))
    | none => .skip
  else if i = [] then .skip
  else .bare (String.mk i)

/-- How one analysed line updates the result dictionary: a key/value
line appends to an existing key's list, or inserts a fresh singleton
when the key is non-empty; a bare line assigns the sentinel list `[1]`
(`BatchAnalyzer.py`, lines 199–208). -/
def confStep (res : List (String × List PyVal)) (line : List Char) :
    List (String × List PyVal) :=
  match confLine line with
  | .skip => res
  | .kv key v =>
    if alContains res key then alAppendVal res key v
    else if key = "" then res
    else res ++ [(key, [v])]
  | .bare key => alSet res key [.pyInt 1]

/-- A caller-supplied default value: either a Python list or any other
value (the source tests `type(default[i]) != list`). -/
inductive DefVal where
  | scalar (v : PyVal)
  | list (l : List PyVal)
deriving DecidableEq

def defWrap : DefVal → List PyVal
  | .scalar v => [v]
  | .list l => l

/-- The default-merging pass (`BatchAnalyzer.py`, lines 219–225): every
default key absent from the result is inserted, a non-list default
value wrapped in a singleton list. -/
def mergeDefaults (res : List (String × List PyVal))
    (dflt : List (String × DefVal)) : List (String × List PyVal) :=
  dflt.foldl (fun r p => if alContains r p.1 then r else r ++ [(p.1, defWrap p.2)]) res

/-- `ReadConf` before the optional simplify pass: parse each line of
the file (an absent file contributes nothing beyond a printed
diagnostic) and merge the defaults. -/
def ReadConfRaw (file : Option String) (dflt : List (String × DefVal)) :
    List (String × List PyVal) :=
  let res : List (String × List PyVal) :=
    match file with
    | some content => (pyReadlines content.toList).foldl confStep []
    | none => []
  mergeDefaults res dflt

/-- An entry of the returned dictionary: a list of values, or a single
collapsed value after simplify. -/
inductive ConfOut where
  | vals (l : List PyVal)
  | one (v : PyVal)
deriving DecidableEq

/-- The simplify pass (`BatchAnalyzer.py`, lines 227–234): in strict
mode collapse exactly the one-element lists; otherwise collapse every
key to its last value.  (On an empty list the non-strict mode of the
source would raise `IndexError`; no claim exercises that path and it is
left as the untouched list here.) -/
def confSimplify (strict : Bool) (res : List (String × List PyVal)) :
    List (String × ConfOut) :=
  if strict then
    res.map (fun p => match p.2 with
      | [v] => (p.1, ConfOut.one v)
      | l => (p.1, ConfOut.vals l))
  else
    res.map (fun p => match p.2.getLast? with
      | some v => (p.1, ConfOut.one v)
      | none => (p.1, ConfOut.vals []))

/-- `ReadConf` (`BatchAnalyzer.py`, lines 126–243).  The file argument
is `none` for a missing file; the `verbose` printing has no effect on
the returned dictionary and is omitted. -/
def ReadConf (file : Option String) (dflt : List (String × DefVal))
    (simplify : Bool := false) (strict : Bool := false) :
    List (String × ConfOut) :=
  let res := ReadConfRaw file dflt
  if simplify then confSimplify strict res
  else res.map (fun p => (p.1, ConfOut.vals p.2))

/-! ### `ReadTable` — the table reader -/

/-- A key of the dictionary `ReadTable` returns: a column index (an
integer) or a caller-supplied name. -/
inductive ColKey where
  | idx (n : Int)
  | name (s : String)
deriving DecidableEq

/-- Token coercion in `ReadTable` (`BatchAnalyzer.py`, lines 297–308):
an empty token becomes the fill value, a float-parsing token the float,
anything else the raw string. -/
def tableToken (dv : PyVal) (tok : List Char) : PyVal :=
  if tok = [] then dv
  else
    match pyParseFloat tok with
    | some f => .pyFloat f
    | none => .pyStr (String.mk tok)

/-- The row-collection loop of `ReadTable` (`BatchAnalyzer.py`,
lines 283–310): strip each line, cut at `#`, skip empty lines, split on
the separator (whitespace runs when the separator is empty), and coerce
every token. -/
def tableLine (sep : String) (dv : PyVal) (t : List Char) : Option (List PyVal) :=
  let t := stripCut t
  if t = [] then none
  else
    let ilist := if sep ≠ "" then pySplitStr sep.toList t else pySplitWs t
    some (ilist.map (tableToken dv))

def tableRows (lines : List (List Char)) (sep : String) (dv : PyVal) :
    List (List PyVal) :=
  lines.filterMap (tableLine sep dv)

/-- The effective column list: the argument, or the indices of the
first collected row when no columns were requested (`BatchAnalyzer.py`,
lines 313–315). -/
def tableCols (cols : List Int) (res : List (List PyVal)) : List Int :=
  if cols = [] then (List.range (res.headD []).length).map Int.ofNat
  else cols

/-- The key list after the padding step (`BatchAnalyzer.py`,
lines 324–327), which is also the state of the caller's `keys` list
after the call: `keys.extend(cols[len(keys):])` mutates the argument in
place, while the `len(keys) == 0` branch only rebinds the local name. -/
def tableKeysAfter (keys : List ColKey) (colsEff : List Int) : List ColKey :=
  if keys.length = 0 then keys
  else if keys.length < colsEff.length then
    keys ++ (colsEff.drop keys.length).map ColKey.idx
  else keys

/-- The keys actually used for the result dictionary: as
`tableKeysAfter`, except that an empty key list is replaced by the
column indices themselves. -/
def tableKeysUsed (keys : List ColKey) (colsEff : List Int) : List ColKey :=
  if keys.length = 0 then colsEff.map ColKey.idx
  else tableKeysAfter keys colsEff

/-- One output column (`BatchAnalyzer.py`, lines 334–342): walk every
row and keep the entry at the requested index, silently skipping rows
where the access fails. -/
def tableColumn (res : List (List PyVal)) (jc : Int) : List PyVal :=
  res.filterMap (fun r => pyGetItem r jc)

/-- `ReadTable` (`BatchAnalyzer.py`, lines 245–348), additionally
reporting the final state of the caller's `keys` list so that the
in-place mutation is observable.  The outcome is `.ok none` for a
missing file (the source returns `None`), `.error "IndexError"` where
the source raises (indexing `res[0]` on an empty row list), and
`.ok (some ...)` with the result dictionary otherwise. -/
def ReadTableFull (file : Option String) (sep : String) (cols : List Int)
    (keys : List ColKey) (dv : PyVal) :
    Except String (Option (List (ColKey × List PyVal) × List ColKey)) :=
  match file with
  | none => .ok none
  | some content =>
    let res := tableRows (pyReadlines content.toList) sep dv
    if cols = [] ∧ res = [] then .error "IndexError"
    else
      let colsEff := tableCols cols res
      let n := colsEff.length
      let keysUsed := tableKeysUsed keys colsEff
      let retres := (List.range n).foldl
        (fun acc j =>
          alSet acc (keysUsed.getD j (ColKey.idx 0))
            (tableColumn res (colsEff.getD j 0))) []
      .ok (some (retres, tableKeysAfter keys colsEff))

/-- The returned dictionary of `ReadTable`, without the mutation
bookkeeping. -/
def ReadTable (file : Option String) (sep : String) (cols : List Int)
    (keys : List ColKey) (dv : PyVal) :
    Except String (Option (List (ColKey × List PyVal))) :=
  (ReadTableFull file sep cols keys dv).map (Option.map Prod.fst)

/-! ### `SaveData` — the text table dump -/

/-- The output filename of `SaveData` (`BatchAnalyzer.py`,
lines 366–372): strip the extension; append `-table.txt` unless the
stem contains `table`, in which case append only `.txt`. -/
def saveDataFileName (filename : String) : String :=
  let fn := (pySplitext filename.toList).1
  if isSubstr "table".toList fn then String.mk fn ++ ".txt"
  else String.mk fn ++ "-table.txt"

/-- Python `sep.join(strings)`, at the character level. -/
def joinSep (sep : List Char) : List (List Char) → List Char
  | [] => []
  | [x] => x
  | x :: y :: rest => x ++ sep ++ joinSep sep (y :: rest)

/-- The characters `SaveData` writes (`BatchAnalyzer.py`,
lines 377–392): a `#`-prefixed remark line, a bare `#` line, a
`#`-prefixed tab-joined header line, then every row tab-joined, each
line newline-terminated. -/
def saveDataContentL (header : List PyVal) (data : List (List PyVal))
    (remark : String) : List Char :=
  '#' :: remark.toList ++ '\n' :: '#' :: '\n' ::
  '#' :: joinSep ['\t'] (header.map (fun i => (pyToString i).toList)) ++ '\n' ::
  (data.map (fun l => joinSep ['\t'] (l.map (fun i => (pyToString i).toList)) ++ ['\n'])).flatten

/-- The text `SaveData` writes, as a string. -/
def saveDataContent (header : List PyVal) (data : List (List PyVal))
    (remark : String) : String :=
  String.mk (saveDataContentL header data remark)

/-- `SaveData` (`BatchAnalyzer.py`, lines 350–398): the normalized
filename and the text written to it (in overwrite mode the file holds
exactly this text; in append mode it is appended). -/
def SaveData (header : List PyVal) (data : List (List PyVal)) (filename : String)
    (remark : String := "") : String × String :=
  (saveDataFileName filename, saveDataContent header data remark)

/-! ### `Report` — the report writer -/

/-- The state of a report's file handle: the Python `fp` attribute is
`None`, an open file object, or a closed one. -/
inductive FpState where
  | fpNone
  | fpOpen
  | fpClosed
deriving DecidableEq

/-- The state of a `Report` instance together with the contents of its
file (the file is opened in append mode, so its contents only ever
grow; a flushed write is durably in `fileContent`). -/
structure ReportState where
  header : String
  addTime : Bool
  fp : FpState
  fileContent : String
deriving DecidableEq

/-- The line `Report.write` builds (`BatchAnalyzer.py`, lines 112–118):
when a timestamp is due, the argument tuple is prefixed by an empty
string and `ctime() + ":"`; the stringified arguments are joined with
single spaces.  The wall-clock reading is the explicit argument `t`. -/
def fmtLine (addTime withtime : Bool) (t : String) (args : List PyVal) : String :=
  let args := if addTime || withtime then [.pyStr "", .pyStr (t ++ ":")] ++ args else args
  String.intercalate " " (args.map pyToString)

/-- The body of `Report.write` below the reopen guard
(`BatchAnalyzer.py`, lines 112–122): append the formatted line and a
newline, and flush.  When called from `Report.open` the guard of the
nested `write` call is false — the handle was just opened — so the
nested call reduces to exactly this body. -/
def reportWriteCore (s : ReportState) (args : List PyVal) (withtime : Bool)
    (t : String) : ReportState :=
  { s with fileContent := s.fileContent ++ fmtLine s.addTime withtime t args ++ "\n" }

/-- `Report.open` (`BatchAnalyzer.py`, lines 65–78): open the file in
append mode, write the header line through `write` (with a forced
timestamp) when the header is non-empty, then write two newlines. -/
def reportOpen (s : ReportState) (t : String) : ReportState :=
  let s1 : ReportState := { s with fp := .fpOpen }
  let s2 := if s1.header.length > 0 then reportWriteCore s1 [.pyStr s1.header] true t else s1
  { s2 with fileContent := s2.fileContent ++ "\n\n" }

/-- `Report.write` (`BatchAnalyzer.py`, lines 93–123): re-run the open
sequence when the handle is `None` or closed, then append the formatted
line and flush. -/
def reportWrite (s : ReportState) (args : List PyVal) (withtime : Bool)
    (t : String) : ReportState :=
  let s1 := if s.fp = .fpNone ∨ s.fp = .fpClosed then reportOpen s t else s
  reportWriteCore s1 args withtime t

/-- The attribute surface of a Python file object, as far as this
module touches it: the `io` file classes expose a boolean attribute
`closed` (and `name`, `mode`, ...), but no attribute named `opened`;
looking one up raises `AttributeError`.  Only the `closed` flag is
carried as data. -/
structure PyFileObj where
  closed : Bool
deriving DecidableEq

/-- Python attribute lookup on a file object, for the attributes read
anywhere in this module: `closed` succeeds, any other name — in
particular `opened` — raises `AttributeError`. -/
def fileGetattr (f : PyFileObj) (attrName : String) : Except String PyVal :=
  if attrName = "closed" then .ok (.pyBool f.closed) else .error "AttributeError"

/-- `Report.opened` (`BatchAnalyzer.py`, lines 80–85): return
`self.fp.opened` when `fp` is not `None`, and `False` otherwise. -/
def reportOpened (fp : Option PyFileObj) : Except String PyVal :=
  match fp with
  | some f => fileGetattr f "opened"
  | none => .ok (.pyBool false)

/-! ### Spec-side reference definitions

These follow the words of the specification, to be compared with the
definitions above, which follow the code. -/

/-- The spec's description of the quoted-value rule: "the substring
between the first pair of double quotes, ignoring any text after the
closing quote" — the characters after the first quote, up to the next
quote. -/
def specQuotedValue (rhs : List Char) : List Char :=
  ((rhs.dropWhile (fun c => c ≠ '"')).tail).takeWhile (fun c => c ≠ '"')

/-- The coerced values that the `=`-lines of a file contribute to a
given key, in file-encounter order. -/
def kvValuesOf (k : String) (lines : List (List Char)) : List PyVal :=
  lines.filterMap (fun l =>
    match confLine l with
    | .kv k' v => if k' = k then some v else none
    | _ => none)

/-- Whether some line of the file is a bare-key occurrence of `k`. -/
def hasBareKey (k : String) (lines : List (List Char)) : Bool :=
  lines.any (fun l =>
    match confLine l with
    | .bare k' => k' = k
    | _ => false)

/-! ## Lemmas about the ordered-dictionary model -/

theorem mapExt {α β : Type} (f g : α → β) :
    ∀ l : List α, (∀ a ∈ l, f a = g a) → l.map f = l.map g := by
  intro l h
  induction l with
  | nil => rfl
  | cons a tl ih =>
    simp only [List.map_cons]
    rw [h a (by simp), ih (fun x hx => h x (by simp [hx]))]

theorem alContains_cons {κ α : Type} [DecidableEq κ] (p : κ × α) (tl : List (κ × α))
    (k : κ) : alContains (p :: tl) k = (decide (p.1 = k) || alContains tl k) := by
  simp [alContains]

theorem alLookup_cons {κ α : Type} [DecidableEq κ] (p : κ × α) (tl : List (κ × α))
    (k : κ) : alLookup (p :: tl) k = if p.1 = k then some p.2 else alLookup tl k := by
  unfold alLookup
  by_cases hp : p.1 = k
  · rw [List.find?_cons_of_pos _ (by simpa using hp), if_pos hp]
  · rw [List.find?_cons_of_neg _ (by simpa using hp), if_neg hp]

theorem alContains_append {κ α : Type} [DecidableEq κ] (a b : List (κ × α)) (k : κ) :
    alContains (a ++ b) k = (alContains a k || alContains b k) := by
  simp [alContains, List.any_append]

theorem alLookup_eq_none_iff {κ α : Type} [DecidableEq κ] (res : List (κ × α)) (k : κ) :
    alLookup res k = none ↔ alContains res k = false := by
  induction res with
  | nil => simp [alLookup, alContains]
  | cons p tl ih =>
    rw [alLookup_cons, alContains_cons]
    by_cases hp : p.1 = k <;> simp [hp, ih]

theorem alLookup_eq_none {κ α : Type} [DecidableEq κ] (res : List (κ × α)) (k : κ)
    (h : alContains res k = false) : alLookup res k = none :=
  (alLookup_eq_none_iff res k).2 h

theorem alContains_of_lookup {κ α : Type} [DecidableEq κ] (res : List (κ × α)) (k : κ)
    (v : α) (h : alLookup res k = some v) : alContains res k = true := by
  by_contra hc
  rw [alLookup_eq_none res k (by revert hc; cases alContains res k <;> simp)] at h
  exact Option.noConfusion h

theorem alLookup_append_left {κ α : Type} [DecidableEq κ] (a b : List (κ × α)) (k : κ)
    (v : α) (h : alLookup a k = some v) : alLookup (a ++ b) k = some v := by
  unfold alLookup at h ⊢
  rw [List.find?_append]
  cases hf : List.find? (fun p => p.1 = k) a with
  | none => rw [hf] at h; exact Option.noConfusion h
  | some p => rw [hf] at h; simpa using h

theorem alLookup_append_right {κ α : Type} [DecidableEq κ] (a b : List (κ × α)) (k : κ)
    (h : alContains a k = false) : alLookup (a ++ b) k = alLookup b k := by
  induction a with
  | nil => rfl
  | cons p tl ih =>
    rw [alContains_cons] at h
    obtain ⟨h1, h2⟩ : (decide (p.1 = k) = false) ∧ alContains tl k = false := by
      revert h; cases decide (p.1 = k) <;> cases alContains tl k <;> simp
    rw [List.cons_append, alLookup_cons, if_neg (by simpa using h1)]
    exact ih h2

theorem alLookup_singleton_same {κ α : Type} [DecidableEq κ] (k : κ) (v : α) :
    alLookup [(k, v)] k = some v := by
  simp [alLookup]

theorem alLookup_append_fresh {κ α : Type} [DecidableEq κ] (res : List (κ × α))
    (k : κ) (v : α) (h : alContains res k = false) :
    alLookup (res ++ [(k, v)]) k = some v := by
  rw [alLookup_append_right _ _ _ h, alLookup_singleton_same]

theorem alLookup_append_single_ne {κ α : Type} [DecidableEq κ] (res : List (κ × α))
    (k k' : κ) (v : α) (h : k' ≠ k) :
    alLookup (res ++ [(k', v)]) k = alLookup res k := by
  cases hl : alLookup res k with
  | some w => exact alLookup_append_left _ _ _ _ hl
  | none =>
    rw [alLookup_append_right _ _ _ ((alLookup_eq_none_iff res k).1 hl)]
    simp [alLookup, h]


theorem alAppendVal_cons {κ : Type} [DecidableEq κ] (p : κ × List PyVal)
    (tl : List (κ × List PyVal)) (k : κ) (v : PyVal) :
    alAppendVal (p :: tl) k v =
      (if p.1 = k then (p.1, p.2 ++ [v]) else p) :: alAppendVal tl k v := rfl

theorem alLookup_alAppendVal_same {κ : Type} [DecidableEq κ]
    (res : List (κ × List PyVal)) (k : κ) (v : PyVal) (cur : List PyVal)
    (h : alLookup res k = some cur) :
    alLookup (alAppendVal res k v) k = some (cur ++ [v]) := by
  induction res with
  | nil => simp [alLookup] at h
  | cons p tl ih =>
    rw [alLookup_cons] at h
    by_cases hp : p.1 = k
    · rw [if_pos hp] at h
      rw [alAppendVal_cons, if_pos hp, alLookup_cons, if_pos hp]
      simp only [Option.some.injEq] at h
      rw [h]
    · rw [if_neg hp] at h
      rw [alAppendVal_cons, if_neg hp, alLookup_cons, if_neg hp]
      exact ih h

theorem alLookup_alAppendVal_ne {κ : Type} [DecidableEq κ]
    (res : List (κ × List PyVal)) (k k' : κ) (v : PyVal) (h : k' ≠ k) :
    alLookup (alAppendVal res k' v) k = alLookup res k := by
  induction res with
  | nil => rfl
  | cons p tl ih =>
    rw [alAppendVal_cons]
    by_cases hp : p.1 = k'
    · rw [if_pos hp, alLookup_cons, alLookup_cons]
      simp only
      rw [if_neg (by rw [hp]; exact h), if_neg (by rw [hp]; exact h)]
      exact ih
    · rw [if_neg hp, alLookup_cons, alLookup_cons]
      by_cases hk : p.1 = k
      · rw [if_pos hk, if_pos hk]
      · rw [if_neg hk, if_neg hk]; exact ih

theorem map_fst_alAppendVal {κ : Type} [DecidableEq κ]
    (res : List (κ × List PyVal)) (k : κ) (v : PyVal) :
    (alAppendVal res k v).map Prod.fst = res.map Prod.fst := by
  unfold alAppendVal
  rw [List.map_map]
  exact mapExt _ _ res (fun p _ => by by_cases hp : p.1 = k <;> simp [hp])

theorem alContains_eq_any_fst {κ α : Type} [DecidableEq κ] (res : List (κ × α))
    (k : κ) : alContains res k = (res.map Prod.fst).any (fun x => decide (x = k)) := by
  induction res with
  | nil => rfl
  | cons p tl ih => rw [alContains_cons, List.map_cons, List.any_cons, ih]

theorem alContains_alAppendVal {κ : Type} [DecidableEq κ]
    (res : List (κ × List PyVal)) (k k' : κ) (v : PyVal) :
    alContains (alAppendVal res k' v) k = alContains res k := by
  rw [alContains_eq_any_fst, alContains_eq_any_fst, map_fst_alAppendVal]

theorem map_fst_replace {κ α : Type} [DecidableEq κ] (res : List (κ × α)) (k : κ)
    (v : α) :
    (res.map (fun p => if p.1 = k then (k, v) else p)).map Prod.fst =
      res.map Prod.fst := by
  rw [List.map_map]
  exact mapExt _ _ res (fun p _ => by by_cases hp : p.1 = k <;> simp [hp])

theorem alLookup_replace_ne {κ α : Type} [DecidableEq κ] (res : List (κ × α))
    (k k' : κ) (v : α) (h : k' ≠ k) :
    alLookup (res.map (fun p => if p.1 = k' then (k', v) else p)) k =
      alLookup res k := by
  induction res with
  | nil => rfl
  | cons p tl ih =>
    rw [List.map_cons]
    by_cases hp : p.1 = k'
    · rw [if_pos hp, alLookup_cons, alLookup_cons]
      simp only
      rw [if_neg h, if_neg (by rw [hp]; exact h)]
      exact ih
    · rw [if_neg hp, alLookup_cons, alLookup_cons]
      by_cases hk : p.1 = k
      · rw [if_pos hk, if_pos hk]
      · rw [if_neg hk, if_neg hk]; exact ih

theorem alLookup_alSet_ne {κ α : Type} [DecidableEq κ] (res : List (κ × α))
    (k k' : κ) (v : α) (h : k' ≠ k) :
    alLookup (alSet res k' v) k = alLookup res k := by
  unfold alSet
  by_cases hc : alContains res k'
  · rw [if_pos hc]
    exact alLookup_replace_ne res k k' v h
  · rw [if_neg hc]
    exact alLookup_append_single_ne res k k' v h

theorem alContains_alSet_ne {κ α : Type} [DecidableEq κ] (res : List (κ × α))
    (k k' : κ) (v : α) (h : k' ≠ k) :
    alContains (alSet res k' v) k = alContains res k := by
  unfold alSet
  by_cases hc : alContains res k'
  · rw [if_pos hc, alContains_eq_any_fst, alContains_eq_any_fst, map_fst_replace]
  · rw [if_neg hc, alContains_append]
    have : alContains [(k', v)] k = false := by simp [alContains, h]
    rw [this, Bool.or_false]

theorem alSet_keys {κ α : Type} [DecidableEq κ] (res : List (κ × α)) (k : κ) (v : α)
    (k' : κ) (h : k' ∈ (alSet res k v).map Prod.fst) :
    k' ∈ res.map Prod.fst ∨ k' = k := by
  unfold alSet at h
  by_cases hc : alContains res k
  · rw [if_pos hc, map_fst_replace] at h
    exact Or.inl h
  · rw [if_neg hc, List.map_append] at h
    rcases List.mem_append.1 h with h | h
    · exact Or.inl h
    · exact Or.inr (by simpa using h)

theorem alSet_fresh {κ α : Type} [DecidableEq κ] (res : List (κ × α)) (k : κ) (v : α)
    (h : alContains res k = false) : alSet res k v = res ++ [(k, v)] := by
  unfold alSet
  rw [if_neg (by simp [h])]

/-! ## Lemmas about default merging -/

theorem mergeDefaults_fresh (dflt : List (String × DefVal)) :
    ∀ res, (∀ p ∈ dflt, alContains res p.1 = false) → (dflt.map Prod.fst).Nodup →
      mergeDefaults res dflt = res ++ dflt.map (fun p => (p.1, defWrap p.2)) := by
  induction dflt with
  | nil => intro res _ _; simp [mergeDefaults]
  | cons hd tl ih =>
    intro res hfresh hnd
    have h0 : alContains res hd.1 = false := hfresh hd (List.mem_cons_self hd tl)
    show List.foldl _ _ (hd :: tl) = _
    rw [List.foldl_cons]
    simp only [h0, Bool.false_eq_true, if_false]
    simp only [List.map_cons, List.nodup_cons] at hnd
    have step := ih (res ++ [(hd.1, defWrap hd.2)])
      (fun p hp => by
        rw [alContains_append, hfresh p (List.mem_cons_of_mem hd hp)]
        have hne : ¬hd.1 = p.1 :=
          fun he => hnd.1 (he ▸ List.mem_map_of_mem Prod.fst hp)
        simp [alContains, hne])
      hnd.2
    show mergeDefaults _ tl = _
    rw [step, List.append_assoc]
    rfl

theorem mergeDefaults_lookup_of_some (res : List (String × List PyVal))
    (dflt : List (String × DefVal)) (k : String) (v : List PyVal)
    (h : alLookup res k = some v) : alLookup (mergeDefaults res dflt) k = some v := by
  unfold mergeDefaults
  induction dflt generalizing res with
  | nil => simpa using h
  | cons hd tl ih =>
    rw [List.foldl_cons]
    by_cases hc : alContains res hd.1
    · simp only [hc, if_true]
      exact ih res h
    · simp only [hc, Bool.false_eq_true, if_false]
      exact ih _ (alLookup_append_left _ _ _ _ h)

theorem mergeDefaults_keys (res : List (String × List PyVal))
    (dflt : List (String × DefVal)) (k : String)
    (h : k ∈ (mergeDefaults res dflt).map Prod.fst) :
    k ∈ res.map Prod.fst ∨ k ∈ dflt.map Prod.fst := by
  unfold mergeDefaults at h
  induction dflt generalizing res with
  | nil => exact Or.inl (by simpa using h)
  | cons hd tl ih =>
    rw [List.foldl_cons] at h
    by_cases hc : alContains res hd.1
    · simp only [hc, if_true] at h
      rcases ih res h with h | h
      · exact Or.inl h
      · exact Or.inr (by simp only [List.map_cons]; exact List.mem_cons_of_mem _ h)
    · simp only [hc, Bool.false_eq_true, if_false] at h
      rcases ih _ h with h | h
      · rw [List.map_append] at h
        rcases List.mem_append.1 h with h | h
        · exact Or.inl h
        · refine Or.inr ?_
          simp only [List.map_cons, List.mem_cons]
          exact Or.inl (by simpa using h)
      · exact Or.inr (by simp only [List.map_cons]; exact List.mem_cons_of_mem _ h)


/-! ## Small facts about the report writer -/

theorem reportOpen_fp (s : ReportState) (t : String) : (reportOpen s t).fp = .fpOpen := by
  unfold reportOpen
  by_cases hh : 0 < s.header.length <;> simp [hh, reportWriteCore]

theorem reportOpen_fileContent (s : ReportState) (t : String) :
    (reportOpen s t).fileContent =
      s.fileContent ++
        (if 0 < s.header.length then fmtLine s.addTime true t [.pyStr s.header] ++ "\n"
         else "") ++ "\n\n" := by
  unfold reportOpen
  by_cases hh : 0 < s.header.length <;>
    simp [hh, reportWriteCore, String.append_assoc]

theorem reportOpen_addTime (s : ReportState) (t : String) :
    (reportOpen s t).addTime = s.addTime := by
  unfold reportOpen
  by_cases hh : 0 < s.header.length <;> simp [hh, reportWriteCore]

/-! ## The claims -/

/-- C9: for every `Report` instance whose `fp` field holds a file
object (not `None`), calling `opened()` raises `AttributeError`,
because it reads an `opened` attribute that file objects do not have;
`opened()` returns a value (`False`) only when `fp` is `None`. -/
theorem opened_raises (f : PyFileObj) :
    reportOpened (some f) = .error "AttributeError" ∧
    reportOpened none = .ok (.pyBool false) :=
  ⟨rfl, rfl⟩

/-- C8: for every `Report` whose handle is absent or closed when
`write` is called, `write` first re-runs the full open sequence
(reopening the file in append mode and re-writing the header line plus
blank lines) and only then appends the formatted line; after every
`write` call the handle is open and the formatted line stands flushed
at the end of the file contents. -/
theorem write_reopens (s : ReportState) (args : List PyVal) (withtime : Bool)
    (t : String) :
    ((s.fp = .fpNone ∨ s.fp = .fpClosed) →
      reportWrite s args withtime t = reportWriteCore (reportOpen s t) args withtime t ∧
      (reportOpen s t).fileContent =
        s.fileContent ++
          (if 0 < s.header.length then fmtLine s.addTime true t [.pyStr s.header] ++ "\n"
           else "") ++ "\n\n") ∧
    (reportWrite s args withtime t).fp = .fpOpen ∧
    (reportWrite s args withtime t).fileContent =
      (if s.fp = .fpNone ∨ s.fp = .fpClosed then (reportOpen s t).fileContent
       else s.fileContent) ++ fmtLine s.addTime withtime t args ++ "\n" := by
  by_cases hc : s.fp = .fpNone ∨ s.fp = .fpClosed
  · refine ⟨fun _ => ⟨?_, reportOpen_fileContent s t⟩, ?_, ?_⟩
    · unfold reportWrite
      rw [if_pos hc]
    · unfold reportWrite
      rw [if_pos hc]
      show (reportOpen s t).fp = _
      exact reportOpen_fp s t
    · unfold reportWrite
      rw [if_pos hc, if_pos hc]
      show (reportOpen s t).fileContent ++
          fmtLine (reportOpen s t).addTime withtime t args ++ "\n" = _
      rw [reportOpen_addTime]
  · have hopen : s.fp = .fpOpen := by
      cases hfp : s.fp
      · exact absurd (Or.inl hfp) hc
      · rfl
      · exact absurd (Or.inr hfp) hc
    refine ⟨fun h => absurd h hc, ?_, ?_⟩
    · unfold reportWrite
      rw [if_neg hc]
      exact hopen
    · unfold reportWrite
      rw [if_neg hc, if_neg hc]
      rfl

theorem write_reopens_witness :
    reportWrite ⟨"hdr", true, .fpClosed, "old"⟩ [.pyStr "x"] false "T" =
      reportWriteCore (reportOpen ⟨"hdr", true, .fpClosed, "old"⟩ "T")
        [.pyStr "x"] false "T" ∧
    (reportWrite ⟨"hdr", true, .fpClosed, "old"⟩ [.pyStr "x"] false "T").fp = .fpOpen :=
  ⟨((write_reopens ⟨"hdr", true, .fpClosed, "old"⟩ [.pyStr "x"] false "T").1
      (Or.inr rfl)).1,
    (write_reopens ⟨"hdr", true, .fpClosed, "old"⟩ [.pyStr "x"] false "T").2.1⟩

/-- C4: when the input file does not exist neither reader raises:
`ReadConf` prints a diagnostic and returns the mapping built only from
the defaults (each non-list default value wrapped in a single-element
sequence), while `ReadTable` prints a diagnostic and returns absence
(`None`) rather than an empty mapping. -/
theorem missing_file_behaviour (dflt : List (String × DefVal))
    (hnd : (dflt.map Prod.fst).Nodup) (sep : String) (cols : List Int)
    (keys : List ColKey) (dv : PyVal) :
    ReadConf none dflt = dflt.map (fun p => (p.1, ConfOut.vals (defWrap p.2))) ∧
    ReadTable none sep cols keys dv = .ok none := by
  constructor
  · have h1 : ReadConf none dflt =
        (mergeDefaults [] dflt).map (fun p => (p.1, ConfOut.vals p.2)) := rfl
    rw [h1, mergeDefaults_fresh dflt [] (fun p _ => rfl) hnd]
    simp [List.map_map]
  · rfl

theorem missing_file_behaviour_witness :
    ReadConf none [("a", DefVal.scalar (.pyInt 7)), ("b", DefVal.list [.pyStr "x"])] =
      [("a", ConfOut.vals [.pyInt 7]), ("b", ConfOut.vals [.pyStr "x"])] ∧
    ReadTable none "" [] [] (.pyInt 0) = .ok none :=
  missing_file_behaviour
    [("a", DefVal.scalar (.pyInt 7)), ("b", DefVal.list [.pyStr "x"])]
    (by decide) "" [] [] (.pyInt 0)

/-- C3: `ReadConf` coerces every extracted value string by this
precedence: a case-insensitive match on "false"/"true" yields the
boolean; otherwise a successful float parse yields that number;
otherwise the original string is kept.  "TRUE", "true", "False" become
booleans, "3.14" becomes the float 3.14 (the exact rational 157/50),
and "abc" stays the string "abc". -/
theorem coercion_precedence :
    (∀ s : List Char, pyLower s = "false".toList → coerceVal s = .pyBool false) ∧
    (∀ s : List Char, pyLower s = "true".toList → coerceVal s = .pyBool true) ∧
    (∀ (s : List Char) (f : PyFloat), pyLower s ≠ "false".toList →
      pyLower s ≠ "true".toList → pyParseFloat s = some f →
      coerceVal s = .pyFloat f) ∧
    (∀ s : List Char, pyLower s ≠ "false".toList → pyLower s ≠ "true".toList →
      pyParseFloat s = none → coerceVal s = .pyStr (String.mk s)) ∧
    coerceVal "TRUE".toList = .pyBool true ∧
    coerceVal "true".toList = .pyBool true ∧
    coerceVal "False".toList = .pyBool false ∧
    coerceVal "3.14".toList = .pyFloat (.finite ⟨157, 50⟩) ∧
    coerceVal "abc".toList = .pyStr "abc" := by
  refine ⟨?_, ?_, ?_, ?_, by decide, by decide, by decide, by decide, by decide⟩
  · intro s h
    simp [coerceVal, h]
  · intro s h
    by_cases hf : pyLower s = "false".toList
    · exact absurd (h.symm.trans hf) (by decide)
    · simp [coerceVal, hf, h]
  · intro s f h1 h2 h3
    have h1' : pyLower s ≠ ['f', 'a', 'l', 's', 'e'] := by simpa using h1
    have h2' : pyLower s ≠ ['t', 'r', 'u', 'e'] := by simpa using h2
    simp [coerceVal, h1', h2', h3]
  · intro s h1 h2 h3
    have h1' : pyLower s ≠ ['f', 'a', 'l', 's', 'e'] := by simpa using h1
    have h2' : pyLower s ≠ ['t', 'r', 'u', 'e'] := by simpa using h2
    simp [coerceVal, h1', h2', h3]

theorem coercion_precedence_witness :
    coerceVal "2.5e1".toList = .pyFloat (.finite ⟨25, 1⟩) :=
  coercion_precedence.2.2.1 "2.5e1".toList (.finite ⟨25, 1⟩)
    (by decide) (by decide) (by decide)

/-- C2 counterexample: on an existing file whose every line is empty or
a comment, with no columns requested, `ReadTable` raises `IndexError`
(indexing the first row of an empty row list) instead of returning
normally. -/
theorem readtable_counterexample :
    ReadTable (some "# comment\n\n") "" [] [] (.pyInt 0) = .error "IndexError" := rfl

/-- C2 (amended): `ReadTable` on an existing file returns normally with
a result dictionary whenever some column was requested or at least one
data row survives the comment/empty-line filter; with no requested
columns and no surviving data row it raises `IndexError` instead (see
the counterexample). -/
theorem readtable_returns (content sep : String) (cols : List Int)
    (keys : List ColKey) (dv : PyVal)
    (h : cols ≠ [] ∨ tableRows (pyReadlines content.toList) sep dv ≠ []) :
    ∃ r, ReadTable (some content) sep cols keys dv = .ok (some r) := by
  have hcond : ¬(cols = [] ∧ tableRows (pyReadlines content.toList) sep dv = []) := by
    rcases h with h | h
    · exact fun hc => h hc.1
    · exact fun hc => h hc.2
  unfold ReadTable ReadTableFull
  simp only [hcond, if_false, Except.map]
  exact ⟨_, rfl⟩

theorem readtable_returns_witness :
    ∃ r, ReadTable (some "1 2\n") "" [] [] (.pyInt 0) = .ok (some r) :=
  readtable_returns "1 2\n" "" [] [] (.pyInt 0) (Or.inr (by decide))

/-- C6: `SaveData` appends "-table.txt" to the filename stem unless the
stem already contains the substring "table", in which case only the
".txt" extension is forced; it writes a comment line with the remark, a
bare "#" line, a commented tab-joined header line, and each data row as
tab-joined stringified values.  On the example input it produces
"out-table.txt" containing the header line "#a\tb" followed by the
lines "1\t2" and "3\t4". -/
theorem savedata_format :
    SaveData [.pyStr "a", .pyStr "b"] [[.pyInt 1, .pyInt 2], [.pyInt 3, .pyInt 4]]
        "out.txt" = ("out-table.txt", "#\n#\n#a\tb\n1\t2\n3\t4\n") ∧
    (∀ fn : String, isSubstr "table".toList (pySplitext fn.toList).1 = true →
      saveDataFileName fn = String.mk (pySplitext fn.toList).1 ++ ".txt") ∧
    (∀ fn : String, isSubstr "table".toList (pySplitext fn.toList).1 = false →
      saveDataFileName fn = String.mk (pySplitext fn.toList).1 ++ "-table.txt") ∧
    (∀ (header : List PyVal) (data : List (List PyVal)) (remark : String),
      saveDataContentL header data remark =
        ('#' :: remark.toList ++ ['\n']) ++ ('#' :: ['\n']) ++
        ('#' :: joinSep ['\t'] (header.map (fun i => (pyToString i).toList)) ++ ['\n']) ++
        (data.map (fun l =>
          joinSep ['\t'] (l.map (fun i => (pyToString i).toList)) ++ ['\n'])).flatten) := by
  refine ⟨by decide, ?_, ?_, ?_⟩
  · intro fn h
    simp only [saveDataFileName]
    rw [if_pos h]
  · intro fn h
    simp only [saveDataFileName]
    rw [if_neg (fun hq => Bool.noConfusion (h.symm.trans hq))]
  · intro header data remark
    simp [saveDataContentL]

theorem savedata_format_witness :
    saveDataFileName "my-table.dat" = "my-table.txt" ∧
    saveDataFileName "out.txt" = "out-table.txt" :=
  ⟨(savedata_format.2.1 "my-table.dat" (by decide)).trans (by decide),
    (savedata_format.2.2.1 "out.txt" (by decide)).trans (by decide)⟩

theorem ReadTableFull_some_eq (content : String) (sep : String) (cols : List Int)
    (keys : List ColKey) (dv : PyVal) :
    ReadTableFull (some content) sep cols keys dv =
      (if cols = [] ∧ tableRows (pyReadlines content.toList) sep dv = [] then
        Except.error "IndexError"
      else
        Except.ok (some
          ((List.range
              (tableCols cols (tableRows (pyReadlines content.toList) sep dv)).length).foldl
            (fun acc j =>
              alSet acc
                ((tableKeysUsed keys
                    (tableCols cols (tableRows (pyReadlines content.toList) sep dv))).getD j
                  (ColKey.idx 0))
                (tableColumn (tableRows (pyReadlines content.toList) sep dv)
                  ((tableCols cols (tableRows (pyReadlines content.toList) sep dv)).getD j
                    0))) [],
            tableKeysAfter keys
              (tableCols cols (tableRows (pyReadlines content.toList) sep dv))))) := rfl

/-- C10: `ReadTable` mutates its caller's `keys` argument: on every
successful call where the supplied keys list is non-empty but shorter
than the effective column list, the missing column indices are appended
in place to that very list, so after the call the caller's keys list is
observably longer; a keys list at least as long as the column list is
left unchanged. -/
theorem keys_mutation (content sep : String) (cols : List Int) (keys : List ColKey)
    (dv : PyVal) (tbl : List (ColKey × List PyVal)) (keysAfter : List ColKey)
    (h : ReadTableFull (some content) sep cols keys dv = .ok (some (tbl, keysAfter))) :
    (keys ≠ [] →
      keys.length <
          (tableCols cols (tableRows (pyReadlines content.toList) sep dv)).length →
      keysAfter = keys ++
        ((tableCols cols (tableRows (pyReadlines content.toList) sep dv)).drop
          keys.length).map ColKey.idx ∧
      keys.length < keysAfter.length) ∧
    ((tableCols cols (tableRows (pyReadlines content.toList) sep dv)).length ≤
        keys.length →
      keysAfter = keys) := by
  have hk : keysAfter =
      tableKeysAfter keys (tableCols cols (tableRows (pyReadlines content.toList) sep dv)) := by
    rw [ReadTableFull_some_eq] at h
    by_cases hcond : cols = [] ∧ tableRows (pyReadlines content.toList) sep dv = []
    · rw [if_pos hcond] at h
      exact absurd h (by simp)
    · rw [if_neg hcond] at h
      simp only [Except.ok.injEq, Option.some.injEq, Prod.mk.injEq] at h
      exact h.2.symm
  constructor
  · intro hne hlt
    have hz : ¬keys.length = 0 := by
      intro h0
      exact hne (List.length_eq_zero.1 h0)
    rw [hk]
    unfold tableKeysAfter
    rw [if_neg hz, if_pos hlt]
    refine ⟨rfl, ?_⟩
    rw [List.length_append, List.length_map, List.length_drop]
    omega
  · intro hge
    rw [hk]
    unfold tableKeysAfter
    by_cases hz : keys.length = 0
    · rw [if_pos hz]
    · rw [if_neg hz, if_neg (by omega)]

theorem keys_mutation_witness :
    ([ColKey.name "a", ColKey.idx 1, ColKey.idx 2] : List ColKey) =
      [ColKey.name "a"] ++
        ((tableCols [] (tableRows (pyReadlines ("1 2 3\n").toList) "" (PyVal.pyInt 0))).drop
          ([ColKey.name "a"] : List ColKey).length).map ColKey.idx ∧
    ([ColKey.name "a"] : List ColKey).length <
      ([ColKey.name "a", ColKey.idx 1, ColKey.idx 2] : List ColKey).length :=
  (keys_mutation "1 2 3\n" "" [] [.name "a"] (.pyInt 0)
      [(.name "a", [.pyFloat (.finite ⟨1, 1⟩)]), (.idx 1, [.pyFloat (.finite ⟨2, 1⟩)]),
        (.idx 2, [.pyFloat (.finite ⟨3, 1⟩)])]
      [.name "a", .idx 1, .idx 2] rfl).1 (by decide) (by decide)


/-! ## String lemmas for the line-processing claims -/

theorem getD_zero_headD {α : Type} (L : List α) (d : α) : L.getD 0 d = L.headD d := by
  cases L <;> rfl

theorem mem_of_mem_dropWhile {p : Char → Bool} {x : Char} :
    ∀ l : List Char, x ∈ l.dropWhile p → x ∈ l := by
  intro l
  induction l with
  | nil => exact fun h => h
  | cons a tl ih =>
    rw [List.dropWhile_cons]
    by_cases ha : p a
    · rw [if_pos ha]
      exact fun h => List.mem_cons_of_mem a (ih h)
    · rw [if_neg ha]
      exact id

theorem dropWhile_append_fixed (p : Char → Bool) (a b : List Char)
    (hb : b.dropWhile p = b) : (a ++ b).dropWhile p = a.dropWhile p ++ b := by
  induction a with
  | nil => simpa using hb
  | cons x xs ih =>
    rw [List.cons_append, List.dropWhile_cons, List.dropWhile_cons]
    by_cases hx : p x
    · rw [if_pos hx, if_pos hx]
      exact ih
    · rw [if_neg hx, if_neg hx, List.cons_append]

theorem takeWhile_append_stop (A rest : List Char) (c0 : Char)
    (hA : ∀ x ∈ A, ¬x = c0) :
    (A ++ c0 :: rest).takeWhile (fun x => x ≠ c0) = A := by
  induction A with
  | nil => simp [List.takeWhile_cons]
  | cons x xs ih =>
    have hx : ¬x = c0 := hA x (by simp)
    have ihh := ih (fun y hy => hA y (by simp [hy]))
    simp only [List.cons_append, List.takeWhile_cons]
    rw [if_pos (by simp [hx])]
    rw [ihh]

theorem pyRstrip_append_cons (A post : List Char) (c0 : Char)
    (hc : ¬pyIsSpace c0 = true) :
    pyRstrip (A ++ c0 :: post) = A ++ c0 :: pyRstrip post := by
  unfold pyRstrip
  rw [List.reverse_append, List.reverse_cons, List.append_assoc, List.singleton_append,
    dropWhile_append_fixed pyIsSpace post.reverse (c0 :: A.reverse)
      (by rw [List.dropWhile_cons, if_neg hc]),
    List.reverse_append, List.reverse_cons, List.reverse_reverse, List.append_assoc,
    List.singleton_append]

theorem pySplitChar_ne_nil (c : Char) (l : List Char) : pySplitChar c l ≠ [] := by
  induction l with
  | nil => simp [pySplitChar]
  | cons x xs ih =>
    unfold pySplitChar
    by_cases hx : x = c
    · simp [hx]
    · rw [if_neg hx]
      cases h : pySplitChar c xs with
      | nil => exact absurd h ih
      | cons y ys => simp

theorem pySplitChar_head (c : Char) (l : List Char) :
    (pySplitChar c l).headD [] = l.takeWhile (fun x => x ≠ c) := by
  induction l with
  | nil => rfl
  | cons x xs ih =>
    unfold pySplitChar
    by_cases hx : x = c
    · rw [if_pos hx]
      simp [List.takeWhile_cons, hx]
    · rw [if_neg hx]
      cases h : pySplitChar c xs with
      | nil => exact absurd h (pySplitChar_ne_nil c xs)
      | cons y ys =>
        rw [h] at ih
        simp only [List.headD_cons] at ih
        simp [List.takeWhile_cons, hx, ih]

theorem pySplitChar_getD_one (c : Char) :
    ∀ l : List Char, c ∈ l →
      (pySplitChar c l).getD 1 [] =
        ((l.dropWhile (fun x => x ≠ c)).tail).takeWhile (fun x => x ≠ c) := by
  intro l
  induction l with
  | nil => intro h; simp at h
  | cons x xs ih =>
    intro h
    unfold pySplitChar
    by_cases hx : x = c
    · rw [if_pos hx]
      rw [List.getD_cons_succ, getD_zero_headD, pySplitChar_head,
        List.dropWhile_cons]
      simp [hx]
    · rw [if_neg hx]
      have hmem : c ∈ xs := by
        rcases List.mem_cons.1 h with h1 | h1
        · exact absurd h1.symm hx
        · exact h1
      cases hsp : pySplitChar c xs with
      | nil => exact absurd hsp (pySplitChar_ne_nil c xs)
      | cons y ys =>
        have ih2 := ih hmem
        rw [hsp, List.getD_cons_succ] at ih2
        rw [List.getD_cons_succ, List.dropWhile_cons, if_pos (by simp [hx])]
        exact ih2

theorem stripCut_comment (pre post : List Char) (h : '#' ∉ pre) :
    stripCut (pre ++ '#' :: post) = pyLstrip pre := by
  have hfix : ('#' :: post).dropWhile pyIsSpace = '#' :: post := by
    rw [List.dropWhile_cons, if_neg (by decide)]
  have h1 : pyStrip (pre ++ '#' :: post) = pyLstrip pre ++ '#' :: pyRstrip post := by
    unfold pyStrip pyLstrip
    rw [dropWhile_append_fixed pyIsSpace pre ('#' :: post) hfix]
    exact pyRstrip_append_cons _ _ _ (by decide)
  have hnot : '#' ∉ pyLstrip pre := fun hm => h (mem_of_mem_dropWhile pre hm)
  simp only [stripCut]
  rw [h1, if_pos (by simp), pySplitChar_head]
  exact takeWhile_append_stop _ _ _ (fun x hx he => hnot (he ▸ hx))

/-- C5: for every config line containing an equals sign, `ReadConf`
first discards everything from the first `#` onward — even inside
quotes, so a line differs in nothing from the same line with the rest
of its text removed after the first `#` — then splits on the first `=`;
when the remaining right-hand side contains a double quote, the value
is the substring between the first pair of double quotes with any text
after the closing quote ignored (the code's split-based extraction
provably equals the spec-side description, which also covers an
unterminated quote by taking everything after it); otherwise the value
is the whitespace-trimmed right-hand side. -/
theorem value_extraction :
    (∀ rhs : List Char, '"' ∈ rhs → valExtract rhs = specQuotedValue rhs) ∧
    (∀ rhs : List Char, '"' ∉ rhs → valExtract rhs = pyStrip rhs) ∧
    (∀ pre post : List Char, '#' ∉ pre →
      confLine (pre ++ '#' :: post) = confLine (pre ++ ['#'])) ∧
    confLine "key = \"a#b\"".toList = .kv "key" (.pyStr "a") ∧
    confLine "key = val # comment".toList = .kv "key" (.pyStr "val") := by
  refine ⟨?_, ?_, ?_, by decide, by decide⟩
  · intro rhs h
    unfold valExtract specQuotedValue
    rw [if_pos h]
    exact pySplitChar_getD_one '"' rhs h
  · intro rhs h
    unfold valExtract
    rw [if_neg h]
  · intro pre post h
    simp only [confLine]
    rw [stripCut_comment pre post h, stripCut_comment pre [] h]

theorem value_extraction_witness :
    valExtract " \"abc\" tail".toList = specQuotedValue " \"abc\" tail".toList :=
  value_extraction.1 " \"abc\" tail".toList (by decide)


/-! ## Lemmas for the config-parser accumulation claim -/

theorem alContains_append_single_ne {κ α : Type} [DecidableEq κ]
    (res : List (κ × α)) (k k' : κ) (v : α) (h : k' ≠ k) :
    alContains (res ++ [(k', v)]) k = alContains res k := by
  rw [alContains_append]
  have hs : alContains [(k', v)] k = false := by simp [alContains, h]
  rw [hs, Bool.or_false]

theorem confLine_bare_ne (line : List Char) (key : String)
    (h : confLine line = ConfEntry.bare key) : key ≠ "" := by
  simp only [confLine] at h
  by_cases he : '=' ∈ stripCut line
  · rw [if_pos he] at h
    cases hsp : pySplit1 '=' (stripCut line) with
    | none => rw [hsp] at h; exact absurd h (by simp)
    | some p =>
      obtain ⟨lhs, rhs⟩ := p
      rw [hsp] at h
      exact absurd h (by simp)
  · rw [if_neg he] at h
    by_cases hi : stripCut line = []
    · rw [if_pos hi] at h
      exact absurd h (by simp)
    · rw [if_neg hi] at h
      have hkey : String.mk (stripCut line) = key := by
        injection h
      intro hke
      rw [hke] at hkey
      have h3 : String.mk (stripCut line) = String.mk [] := hkey
      have h4 : stripCut line = [] := by injection h3
      exact hi h4

theorem confStep_keys (res : List (String × List PyVal)) (line : List Char)
    (k : String) (hk : k ∈ (confStep res line).map Prod.fst) :
    k ∈ res.map Prod.fst ∨ k ≠ "" := by
  cases hcl : confLine line with
  | skip =>
    simp only [confStep, hcl] at hk
    exact Or.inl hk
  | kv key v =>
    simp only [confStep, hcl] at hk
    by_cases hcont : alContains res key
    · rw [if_pos hcont, map_fst_alAppendVal] at hk
      exact Or.inl hk
    · rw [if_neg hcont] at hk
      by_cases hke : key = ""
      · rw [if_pos hke] at hk
        exact Or.inl hk
      · rw [if_neg hke, List.map_append] at hk
        rcases List.mem_append.1 hk with hm | hm
        · exact Or.inl hm
        · right
          have : k = key := by simpa using hm
          rw [this]
          exact hke
  | bare key =>
    simp only [confStep, hcl] at hk
    rcases alSet_keys res key [.pyInt 1] k hk with hm | hm
    · exact Or.inl hm
    · right
      rw [hm]
      exact confLine_bare_ne line key hcl

theorem confFold_keys (lines : List (List Char)) :
    ∀ res, (∀ k ∈ res.map Prod.fst, k ≠ "") →
      ∀ k ∈ (lines.foldl confStep res).map Prod.fst, k ≠ "" := by
  induction lines with
  | nil =>
    intro res h
    simpa using h
  | cons line rest ih =>
    intro res h
    rw [List.foldl_cons]
    apply ih
    intro k hk
    rcases confStep_keys res line k hk with hmem | hne
    · exact h k hmem
    · exact hne

theorem confFold_values (k : String) (hk : k ≠ "") :
    ∀ (lines : List (List Char)) (res : List (String × List PyVal)),
      hasBareKey k lines = false →
      ((∀ cur, alLookup res k = some cur →
          alLookup (lines.foldl confStep res) k = some (cur ++ kvValuesOf k lines)) ∧
        (alContains res k = false →
          alLookup (lines.foldl confStep res) k =
            if kvValuesOf k lines = [] then none
            else some (kvValuesOf k lines))) := by
  intro lines
  induction lines with
  | nil =>
    intro res _
    constructor
    · intro cur hcur
      have hkv : kvValuesOf k ([] : List (List Char)) = [] := rfl
      rw [List.foldl_nil, hkv, List.append_nil]
      exact hcur
    · intro hc
      have hkv : kvValuesOf k ([] : List (List Char)) = [] := rfl
      rw [List.foldl_nil, hkv, if_pos rfl]
      exact alLookup_eq_none res k hc
  | cons line rest ih =>
    intro res hbare
    simp only [hasBareKey, List.any_cons, Bool.or_eq_false_iff] at hbare
    obtain ⟨hb1, hb2⟩ := hbare
    have hb2' : hasBareKey k rest = false := hb2
    rw [List.foldl_cons]
    cases hcl : confLine line with
    | skip =>
      have hstep : confStep res line = res := by simp [confStep, hcl]
      have hkv : kvValuesOf k (line :: rest) = kvValuesOf k rest := by
        simp [kvValuesOf, List.filterMap_cons, hcl]
      rw [hstep, hkv]
      exact ih res hb2'
    | bare key =>
      simp only [hcl] at hb1
      have hne : key ≠ k := of_decide_eq_false hb1
      have hstep : confStep res line = alSet res key [.pyInt 1] := by
        simp [confStep, hcl]
      have hkv : kvValuesOf k (line :: rest) = kvValuesOf k rest := by
        simp [kvValuesOf, List.filterMap_cons, hcl]
      rw [hstep, hkv]
      obtain ⟨iha, ihb⟩ := ih (alSet res key [.pyInt 1]) hb2'
      constructor
      · intro cur hcur
        exact iha cur (by rw [alLookup_alSet_ne res k key _ hne]; exact hcur)
      · intro hc
        exact ihb (by rw [alContains_alSet_ne res k key _ hne]; exact hc)
    | kv key v =>
      by_cases hkk : key = k
      · rw [hkk] at hcl
        have hkv : kvValuesOf k (line :: rest) = v :: kvValuesOf k rest := by
          simp [kvValuesOf, List.filterMap_cons, hcl]
        rw [hkv]
        constructor
        · intro cur hcur
          have hcont : alContains res k = true := alContains_of_lookup res k cur hcur
          have hstep : confStep res line = alAppendVal res k v := by
            simp [confStep, hcl, hcont]
          rw [hstep]
          have h2 := (ih (alAppendVal res k v) hb2').1 (cur ++ [v])
            (alLookup_alAppendVal_same res k v cur hcur)
          rw [h2, List.append_assoc, List.singleton_append]
        · intro hc
          have hstep : confStep res line = res ++ [(k, [v])] := by
            simp [confStep, hcl, hc, hk]
          rw [hstep]
          have h2 := (ih (res ++ [(k, [v])]) hb2').1 [v]
            (alLookup_append_fresh res k [v] hc)
          rw [h2, List.singleton_append, if_neg (by simp)]
      · have hkv : kvValuesOf k (line :: rest) = kvValuesOf k rest := by
          simp [kvValuesOf, List.filterMap_cons, hcl, hkk]
        rw [hkv]
        by_cases hcont : alContains res key
        · have hstep : confStep res line = alAppendVal res key v := by
            simp [confStep, hcl, hcont]
          rw [hstep]
          obtain ⟨iha, ihb⟩ := ih (alAppendVal res key v) hb2'
          constructor
          · intro cur hcur
            exact iha cur (by rw [alLookup_alAppendVal_ne res k key v hkk]; exact hcur)
          · intro hc
            exact ihb (by rw [alContains_alAppendVal res k key v]; exact hc)
        · by_cases hke : key = ""
          · have hcont' : ¬alContains res "" = true := by
              rw [← hke]
              exact hcont
            have hstep : confStep res line = res := by
              simp [confStep, hcl, hcont', hke]
            rw [hstep]
            exact ih res hb2'
          · have hstep : confStep res line = res ++ [(key, [v])] := by
              simp [confStep, hcl, hcont, hke]
            rw [hstep]
            obtain ⟨iha, ihb⟩ := ih (res ++ [(key, [v])]) hb2'
            constructor
            · intro cur hcur
              exact iha cur (alLookup_append_left res _ k cur hcur)
            · intro hc
              exact ihb
                (by rw [alContains_append_single_ne res k key [v] hkk]; exact hc)

theorem map_fst_vals (res : List (String × List PyVal)) :
    (res.map (fun p => (p.1, ConfOut.vals p.2))).map Prod.fst = res.map Prod.fst := by
  rw [List.map_map]
  exact mapExt _ _ res (fun p _ => rfl)

theorem alLookup_map_vals (res : List (String × List PyVal)) (k : String) :
    alLookup (res.map (fun p => (p.1, ConfOut.vals p.2))) k =
      (alLookup res k).map ConfOut.vals := by
  induction res with
  | nil => rfl
  | cons p tl ih =>
    rw [List.map_cons, alLookup_cons, alLookup_cons]
    by_cases hp : p.1 = k <;> simp [hp, ih]

/-- C1 counterexample: in the file "key = 5\nkey\n" the key occurs on
two lines, an `=`-line and a bare line, and the claim predicts the
value sequence [5.0, 1]; the code instead ends with the sentinel list
[1], because the bare line assigns `res[key] = [1]` rather than
appending. -/
theorem conf_order_counterexample :
    alLookup (ReadConf (some "key = 5\nkey\n") []) "key" =
      some (ConfOut.vals [.pyInt 1]) ∧
    alLookup (ReadConf (some "key = 5\nkey\n") []) "key" ≠
      some (ConfOut.vals [.pyFloat (.finite ⟨5, 1⟩), .pyInt 1]) := by
  constructor
  · decide
  · decide

/-- C1 (amended): for every config file parsed by `ReadConf` without
simplify, given defaults whose keys are non-empty, every key of the
returned mapping is a non-empty string; and every non-empty key with no
bare-line occurrence whose `=`-lines contribute at least one value maps
to exactly the coerced values of those lines, one per occurrence, in
file-encounter order.  (A bare-line occurrence instead resets the key
to the single-element sentinel sequence [1], as the counterexample
shows, rather than appending the sentinel.) -/
theorem conf_keys_and_order (content : String) (dflt : List (String × DefVal))
    (k : String) (hd : ∀ p ∈ dflt, p.1 ≠ "") :
    (∀ k' ∈ (ReadConf (some content) dflt).map Prod.fst, k' ≠ "") ∧
    (k ≠ "" → hasBareKey k (pyReadlines content.toList) = false →
      kvValuesOf k (pyReadlines content.toList) ≠ [] →
      alLookup (ReadConf (some content) dflt) k =
        some (ConfOut.vals (kvValuesOf k (pyReadlines content.toList)))) := by
  have hr : ReadConf (some content) dflt =
      (mergeDefaults ((pyReadlines content.toList).foldl confStep []) dflt).map
        (fun p => (p.1, ConfOut.vals p.2)) := rfl
  constructor
  · intro k' hk'
    rw [hr, map_fst_vals] at hk'
    rcases mergeDefaults_keys _ dflt k' hk' with hm | hm
    · exact confFold_keys (pyReadlines content.toList) [] (by simp) k' hm
    · rcases List.mem_map.1 hm with ⟨p, hp, hpe⟩
      rw [← hpe]
      exact hd p hp
  · intro hk hbare hne
    have h1 := ((confFold_values k hk (pyReadlines content.toList) [] hbare).2 rfl)
    rw [if_neg hne] at h1
    have h2 := mergeDefaults_lookup_of_some _ dflt k _ h1
    rw [hr, alLookup_map_vals, h2]
    rfl

theorem conf_keys_and_order_witness :
    alLookup (ReadConf (some "a = 1\na = x\n") [("d", DefVal.scalar (.pyInt 2))]) "a" =
      some (ConfOut.vals (kvValuesOf "a" (pyReadlines ("a = 1\na = x\n").toList))) :=
  (conf_keys_and_order "a = 1\na = x\n" [("d", DefVal.scalar (.pyInt 2))] "a"
    (by decide)).2 (by decide) (by decide) (by decide)


/-! ## Lemmas for the round-trip claim -/

theorem pyReadlinesAux_no_newline (a : List Char) :
    ∀ (rest acc : List Char), '\n' ∉ a →
      pyReadlinesAux (a ++ rest) acc = pyReadlinesAux rest (a.reverse ++ acc) := by
  induction a with
  | nil => intro rest acc _; simp
  | cons x xs ih =>
    intro rest acc h
    have hx : ¬x = '\n' := fun he => h (he ▸ List.mem_cons_self x xs)
    rw [List.cons_append]
    show pyReadlinesAux (x :: (xs ++ rest)) acc = _
    simp only [pyReadlinesAux]
    rw [if_neg hx, ih rest (x :: acc) (fun hm => h (List.mem_cons_of_mem x hm)),
      List.reverse_cons, List.append_assoc, List.singleton_append]

theorem pyReadlines_line (a rest : List Char) (h : '\n' ∉ a) :
    pyReadlines (a ++ '\n' :: rest) = (a ++ ['\n']) :: pyReadlines rest := by
  unfold pyReadlines
  rw [pyReadlinesAux_no_newline a ('\n' :: rest) [] h]
  show pyReadlinesAux ('\n' :: rest) (a.reverse ++ []) = _
  simp only [pyReadlinesAux, if_true]
  rw [List.append_nil, List.reverse_reverse]

theorem pyReadlines_flatten (rows : List (List Char)) (h : ∀ r ∈ rows, '\n' ∉ r) :
    pyReadlines ((rows.map (fun r => r ++ ['\n'])).flatten) =
      rows.map (fun r => r ++ ['\n']) := by
  induction rows with
  | nil => rfl
  | cons r rest ih =>
    rw [List.map_cons, List.flatten_cons, List.append_assoc, List.singleton_append,
      pyReadlines_line r _ (h r (List.mem_cons_self r rest)),
      ih (fun x hx => h x (List.mem_cons_of_mem r hx))]

theorem pyRstrip_cons_nonspace (c : Char) (l : List Char) (hc : ¬pyIsSpace c = true) :
    pyRstrip (c :: l) = c :: pyRstrip l := by
  have h := pyRstrip_append_cons [] l c hc
  simpa using h

theorem stripCut_hash_head (l : List Char) : stripCut ('#' :: l) = [] := by
  have h1 : pyStrip ('#' :: l) = '#' :: pyRstrip l := by
    unfold pyStrip pyLstrip
    rw [List.dropWhile_cons, if_neg (by decide)]
    exact pyRstrip_cons_nonspace '#' l (by decide)
  simp only [stripCut]
  rw [h1, if_pos (by simp), pySplitChar_head, List.takeWhile_cons, if_neg (by simp)]

theorem tableLine_comment (sep : String) (dv : PyVal) (l : List Char) :
    tableLine sep dv ('#' :: l) = none := by
  simp only [tableLine]
  rw [stripCut_hash_head, if_pos rfl]

theorem joinSep_cons_head (sep : List Char) (tl : List (List Char)) (c : Char)
    (m : List Char) :
    ∃ rest, joinSep sep ((c :: m) :: tl) = c :: (m ++ rest) := by
  cases tl with
  | nil => exact ⟨[], by simp [joinSep]⟩
  | cons b tl2 =>
    refine ⟨sep ++ joinSep sep (b :: tl2), ?_⟩
    show (c :: m) ++ sep ++ joinSep sep (b :: tl2) = _
    rw [List.cons_append, List.cons_append, List.append_assoc]

theorem joinSep_ne_nil (sep : List Char) (t : List Char) (tl : List (List Char))
    (ht : t ≠ []) : joinSep sep (t :: tl) ≠ [] := by
  cases t with
  | nil => exact absurd rfl ht
  | cons c m =>
    obtain ⟨rest, hr⟩ := joinSep_cons_head sep tl c m
    rw [hr]
    simp

theorem joinSep_mem (sep : List Char) (x : Char) :
    ∀ ls : List (List Char), x ∈ joinSep sep ls → x ∈ sep ∨ ∃ l ∈ ls, x ∈ l := by
  intro ls
  induction ls with
  | nil => intro h; simp [joinSep] at h
  | cons a tl ih =>
    cases tl with
    | nil =>
      intro h
      right
      exact ⟨a, List.mem_cons_self a [], by simpa [joinSep] using h⟩
    | cons b tl2 =>
      intro h
      have hj : joinSep sep (a :: b :: tl2) = a ++ sep ++ joinSep sep (b :: tl2) := rfl
      rw [hj] at h
      rcases List.mem_append.1 h with h1 | h1
      · rcases List.mem_append.1 h1 with h2 | h2
        · right
          exact ⟨a, List.mem_cons_self a (b :: tl2), h2⟩
        · exact Or.inl h2
      · rcases ih h1 with h2 | ⟨l, hl, hx⟩
        · exact Or.inl h2
        · right
          exact ⟨l, List.mem_cons_of_mem a hl, hx⟩

theorem joinSep_last_nonspace (sep : List Char) :
    ∀ tokens : List (List Char),
      (∀ t ∈ tokens, t ≠ []) →
      (∀ t ∈ tokens, ∀ c ∈ t, ¬pyIsSpace c = true) →
      ∀ x, (joinSep sep tokens).getLast? = some x → ¬pyIsSpace x = true := by
  intro tokens
  induction tokens with
  | nil => intro _ _ x hx; simp [joinSep] at hx
  | cons a tl ih =>
    intro hne hws x hx
    cases tl with
    | nil =>
      have ha : (a : List Char).getLast? = some x := by simpa [joinSep] using hx
      exact hws a (List.mem_cons_self a []) x (List.mem_of_getLast?_eq_some ha)
    | cons b tl2 =>
      have hJ : joinSep sep (b :: tl2) ≠ [] :=
        joinSep_ne_nil sep b tl2 (hne b (by simp))
      have hj : joinSep sep (a :: b :: tl2) = (a ++ sep) ++ joinSep sep (b :: tl2) := rfl
      rw [hj, List.getLast?_append_of_ne_nil _ hJ] at hx
      exact ih (fun t ht => hne t (List.mem_cons_of_mem a ht))
        (fun t ht => hws t (List.mem_cons_of_mem a ht)) x hx

theorem rstrip_fixed_of_getLast (l : List Char)
    (h : ∀ x, l.getLast? = some x → ¬pyIsSpace x = true) : pyRstrip l = l := by
  unfold pyRstrip
  cases hrev : l.reverse with
  | nil =>
    rw [List.dropWhile_nil]
    rw [show l = ([] : List Char) from by simpa using congrArg List.reverse hrev]
    rfl
  | cons x m =>
    have hx : l.getLast? = some x := by
      rw [← List.head?_reverse, hrev]
      rfl
    rw [List.dropWhile_cons, if_neg (h x hx), ← hrev, List.reverse_reverse]

theorem pySplitWsAux_token (tok : List Char) :
    ∀ (rest acc : List Char), (∀ c ∈ tok, ¬pyIsSpace c = true) →
      pySplitWsAux (tok ++ rest) acc = pySplitWsAux rest (tok.reverse ++ acc) := by
  induction tok with
  | nil => intro rest acc _; simp
  | cons x xs ih =>
    intro rest acc h
    rw [List.cons_append]
    show pySplitWsAux (x :: (xs ++ rest)) acc = _
    simp only [pySplitWsAux]
    rw [if_neg (h x (List.mem_cons_self x xs)),
      ih rest (x :: acc) (fun c hc => h c (List.mem_cons_of_mem x hc)),
      List.reverse_cons, List.append_assoc, List.singleton_append]

theorem pySplitWs_joinTab :
    ∀ tokens : List (List Char), (∀ t ∈ tokens, t ≠ []) →
      (∀ t ∈ tokens, ∀ c ∈ t, ¬pyIsSpace c = true) →
      pySplitWs (joinSep ['\t'] tokens) = tokens := by
  intro tokens
  induction tokens with
  | nil => intro _ _; rfl
  | cons t tl ih =>
    intro hne hws
    cases tl with
    | nil =>
      have h1 : joinSep ['\t'] [t] = t := rfl
      unfold pySplitWs
      rw [h1]
      have h2 := pySplitWsAux_token t [] [] (hws t (List.mem_cons_self t []))
      rw [List.append_nil] at h2
      rw [h2, List.append_nil]
      simp only [pySplitWsAux]
      rw [if_neg (by simp [hne t (List.mem_cons_self t [])]), List.reverse_reverse]
    | cons b tl2 =>
      have hj : joinSep ['\t'] (t :: b :: tl2) =
          t ++ '\t' :: joinSep ['\t'] (b :: tl2) := by
        show (t ++ ['\t']) ++ joinSep ['\t'] (b :: tl2) = _
        rw [List.append_assoc, List.singleton_append]
      unfold pySplitWs
      rw [hj, pySplitWsAux_token t _ [] (hws t (List.mem_cons_self t (b :: tl2)))]
      simp only [pySplitWsAux]
      rw [if_pos (by decide), if_neg (by simp [hne t (List.mem_cons_self t (b :: tl2))]),
        List.append_nil, List.reverse_reverse]
      have := ih (fun x hx => hne x (List.mem_cons_of_mem t hx))
        (fun x hx => hws x (List.mem_cons_of_mem t hx))
      unfold pySplitWs at this
      rw [this]

theorem pyStrip_row (tokens : List (List Char))
    (hne : ∀ t ∈ tokens, t ≠ [])
    (hws : ∀ t ∈ tokens, ∀ c ∈ t, ¬pyIsSpace c = true)
    (t0 : List Char) (tl0 : List (List Char)) (ht0 : tokens = t0 :: tl0) :
    pyStrip (joinSep ['\t'] tokens ++ ['\n']) = joinSep ['\t'] tokens := by
  have h1 : pyRstrip (joinSep ['\t'] tokens ++ ['\n']) =
      pyRstrip (joinSep ['\t'] tokens) := by
    unfold pyRstrip
    rw [List.reverse_append, List.reverse_singleton, List.singleton_append,
      List.dropWhile_cons, if_pos (by decide)]
  have h2 : pyRstrip (joinSep ['\t'] tokens) = joinSep ['\t'] tokens :=
    rstrip_fixed_of_getLast _ (joinSep_last_nonspace ['\t'] tokens hne hws)
  obtain ⟨c, m, hc⟩ : ∃ c m, t0 = c :: m := by
    cases ht : t0 with
    | nil => exact absurd (ht ▸ hne t0 (ht0 ▸ List.mem_cons_self t0 tl0)) (by simp)
    | cons c m => exact ⟨c, m, rfl⟩
  obtain ⟨rest, hr⟩ := joinSep_cons_head ['\t'] tl0 c m
  have hlstrip : pyLstrip (joinSep ['\t'] tokens ++ ['\n']) =
      joinSep ['\t'] tokens ++ ['\n'] := by
    rw [ht0, hc, hr]
    unfold pyLstrip
    rw [List.cons_append, List.dropWhile_cons,
      if_neg (hws t0 (ht0 ▸ List.mem_cons_self t0 tl0) c (hc ▸ List.mem_cons_self c m))]
  unfold pyStrip
  rw [hlstrip, h1, h2]

theorem tableLine_row (dv : PyVal) (tokens : List (List Char))
    (hne : ∀ t ∈ tokens, t ≠ [])
    (hws : ∀ t ∈ tokens, ∀ c ∈ t, ¬pyIsSpace c = true)
    (hhash : ∀ t ∈ tokens, '#' ∉ t)
    (t0 : List Char) (tl0 : List (List Char)) (ht0 : tokens = t0 :: tl0) :
    tableLine "" dv (joinSep ['\t'] tokens ++ ['\n']) =
      some (tokens.map (tableToken dv)) := by
  have hmem : '#' ∉ joinSep ['\t'] tokens := by
    intro hm
    rcases joinSep_mem ['\t'] '#' tokens hm with h1 | ⟨l, hl, hx⟩
    · simp at h1
    · exact hhash l hl hx
  have hstrip : stripCut (joinSep ['\t'] tokens ++ ['\n']) = joinSep ['\t'] tokens := by
    simp only [stripCut]
    rw [pyStrip_row tokens hne hws t0 tl0 ht0, if_neg hmem]
  simp only [tableLine]
  rw [hstrip, if_neg (ht0 ▸ joinSep_ne_nil ['\t'] t0 tl0
    (hne t0 (ht0 ▸ List.mem_cons_self t0 tl0)))]
  rw [if_neg (by simp), pySplitWs_joinTab tokens hne hws]


theorem filterMap_all_some {α β : Type} (f : α → Option β) (g : α → β) :
    ∀ l : List α, (∀ x ∈ l, f x = some (g x)) → l.filterMap f = l.map g := by
  intro l
  induction l with
  | nil => intro _; rfl
  | cons a tl ih =>
    intro h
    rw [List.filterMap_cons]
    simp only [h a (List.mem_cons_self a tl)]
    rw [List.map_cons, ih (fun x hx => h x (List.mem_cons_of_mem a hx))]

theorem filterMapExt {α β : Type} (f g : α → Option β) :
    ∀ l : List α, (∀ a ∈ l, f a = g a) → l.filterMap f = l.filterMap g := by
  intro l
  induction l with
  | nil => intro _; rfl
  | cons a tl ih =>
    intro h
    rw [List.filterMap_cons, List.filterMap_cons,
      h a (List.mem_cons_self a tl), ih (fun x hx => h x (List.mem_cons_of_mem a hx))]

theorem foldl_alSet_fresh {κ α : Type} [DecidableEq κ] (fk : Nat → κ) (fv : Nat → α) :
    ∀ (js : List Nat) (acc : List (κ × α)),
      (∀ j ∈ js, alContains acc (fk j) = false) →
      js.Pairwise (fun a b => fk a ≠ fk b) →
      js.foldl (fun a j => alSet a (fk j) (fv j)) acc =
        acc ++ js.map (fun j => (fk j, fv j)) := by
  intro js
  induction js with
  | nil => intro acc _ _; simp
  | cons j tl ih =>
    intro acc hfresh hpw
    obtain ⟨hpw1, hpw2⟩ := List.pairwise_cons.1 hpw
    have hfresh2 : ∀ i ∈ tl, alContains (acc ++ [(fk j, fv j)]) (fk i) = false := by
      intro i hi
      rw [alContains_append, hfresh i (List.mem_cons_of_mem j hi)]
      have hone : alContains [(fk j, fv j)] (fk i) = false := by
        simp [alContains, hpw1 i hi]
      rw [hone]
      rfl
    rw [List.foldl_cons,
      alSet_fresh acc (fk j) (fv j) (hfresh j (List.mem_cons_self j tl)),
      ih (acc ++ [(fk j, fv j)]) hfresh2 hpw2, List.map_cons, List.append_assoc,
      List.singleton_append]

theorem getD_map_range {α : Type} (n j : Nat) (f : Nat → α) (d : α) (h : j < n) :
    ((List.range n).map f).getD j d = f j := by
  rw [List.getD_eq_getD_get?, List.get?_map, List.get?_range h]
  rfl

theorem pyGetItem_natCast {α : Type} (r : List α) (j : Nat) :
    pyGetItem r (Int.ofNat j) = r.get? j := by
  unfold pyGetItem
  rw [if_pos (show (0 : Int) ≤ Int.ofNat j from Int.ofNat_le.2 (Nat.zero_le j))]
  rfl

theorem getD_map_of_lt {α β : Type} (f : α → β) (r : List α) (j : Nat) (d : α)
    (hj : j < r.length) : (r.map f).getD j (f d) = f (r.getD j d) := by
  rw [List.getD_eq_getD_get?, List.getD_eq_getD_get?, List.get?_map]
  cases hg : r.get? j with
  | none =>
    have := List.get?_eq_none.1 hg
    omega
  | some x => rfl

theorem filterMap_get?_of_len {α : Type} (d : α) (n j : Nat) (hj : j < n) :
    ∀ rows : List (List α), (∀ r ∈ rows, r.length = n) →
      rows.filterMap (fun r => r.get? j) = rows.map (fun r => r.getD j d) := by
  intro rows
  induction rows with
  | nil => intro _; rfl
  | cons r tl ih =>
    intro hlen
    have hl : j < r.length := by
      rw [hlen r (List.mem_cons_self r tl)]
      exact hj
    have hr : r.get? j = some (r.getD j d) := by
      cases hg : r.get? j with
      | none =>
        have := List.get?_eq_none.1 hg
        omega
      | some x =>
        rw [List.getD_eq_getD_get?, hg]
        rfl
    rw [List.filterMap_cons]
    simp only [hr]
    rw [List.map_cons, ih (fun x hx => hlen x (List.mem_cons_of_mem r hx))]

theorem row_tokens (r : List String) :
    (r.map PyVal.pyStr).map (fun i => (pyToString i).toList) =
      r.map (fun s => s.toList) := by
  rw [List.map_map]
  exact mapExt _ _ r (fun s _ => rfl)

theorem tableToken_str (dv : PyVal) (s : String) (hne : s.toList ≠ [])
    (hpf : pyParseFloat s.toList = none) :
    tableToken dv s.toList = PyVal.pyStr s := by
  unfold tableToken
  rw [if_neg hne, hpf]
  rfl

theorem map_tableToken_row (dv : PyVal) (r : List String)
    (h : ∀ s ∈ r, s.toList ≠ [] ∧ pyParseFloat s.toList = none) :
    (r.map (fun s => s.toList)).map (tableToken dv) = r.map PyVal.pyStr := by
  rw [List.map_map]
  exact mapExt _ _ r (fun s hs => tableToken_str dv s (h s hs).1 (h s hs).2)

theorem saveData_lines (header : List PyVal) (data : List (List PyVal))
    (remark : String)
    (hrem : '\n' ∉ remark.toList)
    (hhd : ∀ hv ∈ header, '\n' ∉ (pyToString hv).toList)
    (hdata : ∀ l ∈ data, ∀ v ∈ l, '\n' ∉ (pyToString v).toList) :
    pyReadlines (saveDataContentL header data remark) =
      ('#' :: remark.toList ++ ['\n']) :: ('#' :: ['\n']) ::
      ('#' :: joinSep ['\t'] (header.map (fun i => (pyToString i).toList)) ++ ['\n']) ::
      (data.map
        (fun l => joinSep ['\t'] (l.map (fun i => (pyToString i).toList)) ++ ['\n'])) := by
  have h1 : '\n' ∉ '#' :: remark.toList := by
    intro hm
    rcases List.mem_cons.1 hm with hm | hm
    · exact absurd hm (by decide)
    · exact hrem hm
  have hjmem : ∀ (ls : List (List PyVal)) (l : List PyVal), (∀ v ∈ l, '\n' ∉ (pyToString v).toList) →
      '\n' ∉ joinSep ['\t'] (l.map (fun i => (pyToString i).toList)) := by
    intro _ l hl hm
    rcases joinSep_mem ['\t'] '\n' _ hm with hm1 | ⟨t, ht, hx⟩
    · exact absurd hm1 (by decide)
    · rcases List.mem_map.1 ht with ⟨v, hv, hve⟩
      exact hl v hv (hve ▸ hx)
  have h3 : '\n' ∉ '#' :: joinSep ['\t'] (header.map (fun i => (pyToString i).toList)) := by
    intro hm
    rcases List.mem_cons.1 hm with hm | hm
    · exact absurd hm (by decide)
    · exact hjmem [] header hhd hm
  have e1 : saveDataContentL header data remark =
      ('#' :: remark.toList) ++ '\n' ::
        (['#'] ++ '\n' ::
          (('#' :: joinSep ['\t'] (header.map (fun i => (pyToString i).toList))) ++ '\n' ::
            (data.map (fun l =>
              joinSep ['\t'] (l.map (fun i => (pyToString i).toList)) ++ ['\n'])).flatten)) := by
    unfold saveDataContentL
    rw [List.append_assoc]
    rfl
  rw [e1, pyReadlines_line _ _ h1, pyReadlines_line _ _ (by decide),
    pyReadlines_line _ _ h3]
  have e2 : data.map (fun l =>
        joinSep ['\t'] (l.map (fun i => (pyToString i).toList)) ++ ['\n']) =
      (data.map (fun l => joinSep ['\t'] (l.map (fun i => (pyToString i).toList)))).map
        (fun r => r ++ ['\n']) := by
    rw [List.map_map]
    exact mapExt _ _ data (fun l _ => rfl)
  rw [e2, pyReadlines_flatten _ (by
    intro r hr
    rcases List.mem_map.1 hr with ⟨l, hl, hle⟩
    rw [← hle]
    exact hjmem [] l (hdata l hl)), ← e2]
  rfl

/-- C7 counterexample: the one-row table holding the Python int 1,
written by `SaveData` and re-read by `ReadTable` (comment lines
skipped), comes back as the float 1.0, whose string representation
"1.0" differs from the original value's "1". -/
theorem roundtrip_counterexample :
    ReadTable (some (saveDataContent [.pyStr "h"] [[.pyInt 1]] "")) "" [] []
        (.pyInt 0) =
      .ok (some [(ColKey.idx 0, [.pyFloat (.finite ⟨1, 1⟩)])]) ∧
    pyToString (.pyFloat (.finite ⟨1, 1⟩)) ≠ pyToString (.pyInt 1) := by
  constructor
  · rfl
  · decide

/-- C7 (amended): the round trip preserves values exactly (hence their
string representations) for tables of textual values: for every
non-empty table of rows of equal positive length whose entries are
non-empty whitespace-free strings containing no `#` and not parsing as
floats, and whose header and remark contain no newline, writing with
`SaveData` and re-reading with `ReadTable` (comment lines skipped)
returns, for every column index, exactly the original rows' values at
that index.  Numeric entries are not preserved in string representation
(the counterexample: the int 1 returns as the float 1.0). -/
theorem roundtrip_strings (rows : List (List String)) (header : List PyVal)
    (remark : String) (dv : PyVal) (n : Nat)
    (r0 : List String) (tl0 : List (List String)) (hrows : rows = r0 :: tl0)
    (hn : 0 < n)
    (hlen : ∀ r ∈ rows, r.length = n)
    (htok : ∀ r ∈ rows, ∀ s ∈ r, s.toList ≠ [] ∧
      (∀ c ∈ s.toList, ¬pyIsSpace c = true) ∧ '#' ∉ s.toList ∧
      pyParseFloat s.toList = none)
    (hhd : ∀ hv ∈ header, '\n' ∉ (pyToString hv).toList)
    (hrem : '\n' ∉ remark.toList) :
    ReadTable (some (saveDataContent header (rows.map (List.map PyVal.pyStr)) remark))
        "" [] [] dv =
      .ok (some ((List.range n).map (fun (j : Nat) =>
        (ColKey.idx (Int.ofNat j),
          rows.map (fun r => PyVal.pyStr (r.getD j "")))))) := by
  have htok1 : ∀ r ∈ rows, ∀ t ∈ r.map (fun s : String => s.toList), t ≠ [] := by
    intro r hr t ht
    rcases List.mem_map.1 ht with ⟨s, hs, he⟩
    rw [← he]
    exact (htok r hr s hs).1
  have htok2 : ∀ r ∈ rows, ∀ t ∈ r.map (fun s : String => s.toList),
      ∀ c ∈ t, ¬pyIsSpace c = true := by
    intro r hr t ht c hc
    rcases List.mem_map.1 ht with ⟨s, hs, he⟩
    exact (htok r hr s hs).2.1 c (he ▸ hc)
  have htok3 : ∀ r ∈ rows, ∀ t ∈ r.map (fun s : String => s.toList), '#' ∉ t := by
    intro r hr t ht
    rcases List.mem_map.1 ht with ⟨s, hs, he⟩
    rw [← he]
    exact (htok r hr s hs).2.2.1
  have hdata : ∀ l ∈ rows.map (List.map PyVal.pyStr), ∀ v ∈ l,
      '\n' ∉ (pyToString v).toList := by
    intro l hl v hv
    rcases List.mem_map.1 hl with ⟨r, hr, hle⟩
    rcases List.mem_map.1 (hle ▸ hv) with ⟨s, hs, hve⟩
    rw [← hve]
    intro hmem
    exact absurd (by decide : pyIsSpace '\n' = true)
      ((htok r hr s hs).2.1 '\n' hmem)
  have hrowline : ∀ l ∈ rows.map (List.map PyVal.pyStr),
      tableLine "" dv
        (joinSep ['\t'] (l.map (fun i => (pyToString i).toList)) ++ ['\n']) =
      some l := by
    intro l hl
    rcases List.mem_map.1 hl with ⟨r, hr, hle⟩
    subst hle
    rw [row_tokens r]
    have hrlen : r.length = n := hlen r hr
    obtain ⟨s0, rtl, hr0⟩ : ∃ s0 rtl, r = s0 :: rtl := by
      cases hc : r with
      | nil =>
        rw [hc] at hrlen
        simp at hrlen
        omega
      | cons s0 rtl => exact ⟨s0, rtl, rfl⟩
    rw [tableLine_row dv (r.map (fun s => s.toList)) (htok1 r hr) (htok2 r hr)
      (htok3 r hr) s0.toList (rtl.map (fun s => s.toList)) (by rw [hr0]; rfl)]
    rw [map_tableToken_row dv r
      (fun s hs => ⟨(htok r hr s hs).1, (htok r hr s hs).2.2.2⟩)]
  have hres : tableRows
      (pyReadlines (saveDataContentL header (rows.map (List.map PyVal.pyStr)) remark))
      "" dv = rows.map (List.map PyVal.pyStr) := by
    rw [saveData_lines header _ remark hrem hhd hdata]
    unfold tableRows
    simp only [List.cons_append, List.filterMap_cons, tableLine_comment]
    rw [List.filterMap_map,
      filterMap_all_some ((tableLine "" dv) ∘ fun (l : List PyVal) =>
        joinSep ['\t'] (l.map (fun i => (pyToString i).toList)) ++ ['\n']) id _
        (fun l hl => hrowline l hl),
      List.map_id]
  have hD0 : rows.map (List.map PyVal.pyStr) ≠ [] := by
    rw [hrows]
    simp
  have hheadlen : ((rows.map (List.map PyVal.pyStr)).headD []).length = n := by
    rw [hrows, List.map_cons, List.headD_cons, List.length_map]
    exact hlen r0 (hrows ▸ List.mem_cons_self r0 tl0)
  have hcols : tableCols [] (rows.map (List.map PyVal.pyStr)) =
      (List.range n).map Int.ofNat := by
    unfold tableCols
    rw [if_pos (show ([] : List Int) = [] from rfl), hheadlen]
  have hkeys : tableKeysUsed [] ((List.range n).map Int.ofNat) =
      (List.range n).map (fun m => ColKey.idx (Int.ofNat m)) := by
    unfold tableKeysUsed
    rw [if_pos (show ([] : List ColKey).length = 0 from rfl), List.map_map]
    exact mapExt _ _ _ (fun m _ => rfl)
  have hlenD : ∀ l ∈ rows.map (List.map PyVal.pyStr), l.length = n := by
    intro l hl
    rcases List.mem_map.1 hl with ⟨r, hr, hle⟩
    rw [← hle, List.length_map]
    exact hlen r hr
  have hcol : ∀ j, j < n →
      tableColumn (rows.map (List.map PyVal.pyStr)) (Int.ofNat j) =
        rows.map (fun r => PyVal.pyStr (r.getD j "")) := by
    intro j hj
    unfold tableColumn
    rw [filterMapExt _ (fun r => r.get? j) _ (fun r _ => pyGetItem_natCast r j),
      filterMap_get?_of_len (PyVal.pyStr "") n j hj _ hlenD, List.map_map]
    refine mapExt _ _ rows (fun r hr => ?_)
    show (r.map PyVal.pyStr).getD j (PyVal.pyStr "") = PyVal.pyStr (r.getD j "")
    exact getD_map_of_lt PyVal.pyStr r j ""
      (by rw [hlen r hr]; exact hj)
  have e0 : ReadTable
      (some (saveDataContent header (rows.map (List.map PyVal.pyStr)) remark))
      "" [] [] dv =
      Except.map (Option.map Prod.fst)
        (ReadTableFull
          (some (saveDataContent header (rows.map (List.map PyVal.pyStr)) remark))
          "" [] [] dv) := rfl
  have e1 : (saveDataContent header (rows.map (List.map PyVal.pyStr)) remark).toList =
      saveDataContentL header (rows.map (List.map PyVal.pyStr)) remark := rfl
  rw [e0, ReadTableFull_some_eq, e1, hres, if_neg (fun hc => hD0 hc.2), hcols, hkeys]
  have hka : tableKeysAfter [] ((List.range n).map Int.ofNat) = [] := rfl
  rw [hka]
  simp only [List.length_map, List.length_range]
  have hpw : (List.range n).Pairwise (fun a b =>
      ((List.range n).map (fun m => ColKey.idx (Int.ofNat m))).getD a (ColKey.idx 0) ≠
        ((List.range n).map (fun m => ColKey.idx (Int.ofNat m))).getD b (ColKey.idx 0)) := by
    refine (List.pairwise_lt_range n).imp_of_mem ?_
    intro a b ha hb hlt
    rw [getD_map_range n a _ _ (List.mem_range.1 ha),
      getD_map_range n b _ _ (List.mem_range.1 hb)]
    intro he
    have h2 : Int.ofNat a = Int.ofNat b := ColKey.idx.inj he
    have h3 : a = b := Int.ofNat.inj h2
    omega
  rw [foldl_alSet_fresh
    (fun j => ((List.range n).map (fun m => ColKey.idx (Int.ofNat m))).getD j (ColKey.idx 0))
    (fun j => tableColumn (rows.map (List.map PyVal.pyStr))
      (((List.range n).map Int.ofNat).getD j 0))
    (List.range n) [] (fun _ _ => rfl) hpw, List.nil_append]
  have hmap : (List.range n).map (fun j =>
      (((List.range n).map (fun m => ColKey.idx (Int.ofNat m))).getD j (ColKey.idx 0),
        tableColumn (rows.map (List.map PyVal.pyStr))
          (((List.range n).map Int.ofNat).getD j 0))) =
      (List.range n).map (fun (j : Nat) =>
        (ColKey.idx (Int.ofNat j), rows.map (fun r => PyVal.pyStr (r.getD j "")))) := by
    refine mapExt _ _ (List.range n) (fun j hj => ?_)
    have hjn := List.mem_range.1 hj
    rw [getD_map_range n j _ _ hjn, getD_map_range n j _ _ hjn, hcol j hjn]
  rw [hmap]
  rfl

theorem roundtrip_strings_witness :
    ReadTable
      (some (saveDataContent [.pyStr "x", .pyStr "y"]
        ([["a", "b"], ["c", "d"]].map (List.map PyVal.pyStr)) "")) "" [] []
      (.pyInt 0) =
    .ok (some ((List.range 2).map (fun (j : Nat) =>
      (ColKey.idx (Int.ofNat j),
        [["a", "b"], ["c", "d"]].map (fun r => PyVal.pyStr (r.getD j "")))))) :=
  roundtrip_strings [["a", "b"], ["c", "d"]] [.pyStr "x", .pyStr "y"] "" (.pyInt 0) 2
    ["a", "b"] [["c", "d"]] rfl (by decide) (by decide) (by decide) (by decide)
    (by decide)


end BatchAnalyzer
